import Mathlib

/-!
Verification development for the vhost memory-region reconciliation engine and
dirty-log synchronizer (`hw/vhost.c`, qemu-kvm 1.2.0).

Guest-physical and host-virtual addresses are `u64` in the source; they are
modelled here as unbounded naturals.  All arithmetic performed by the modelled
functions agrees with the 64-bit machine arithmetic on every input whose ranges
lie inside the 64-bit address space and have nonzero length (the callers only
pass such ranges: `vhost_set_memory` asserts `size != 0`); theorems carry the
corresponding positivity hypotheses.  Subtraction only occurs under branch
guards that make it exact, mirroring the C code.
-/

/-- `range_get_last` from the repository's `range.h`: the last byte of the
range `[offset, offset+len)`.  Exact for `len > 0` ranges that do not wrap. -/
def range_get_last (offset len : Nat) : Nat := offset + len - 1

/-- `ranges_overlap` from the repository's `range.h`: closed-interval
intersection test on `[first, last]` ranges. -/
def ranges_overlap (first1 len1 first2 len2 : Nat) : Bool :=
  decide (first1 ≤ range_get_last first2 len2) &&
  decide (first2 ≤ range_get_last first1 len1)

/-- `struct vhost_memory_region` (the fields used by the code). -/
structure VhostMemoryRegion where
  guest_phys_addr : Nat
  memory_size : Nat
  userspace_addr : Nat
deriving DecidableEq, Repr

/-- The per-region effect of `vhost_dev_unassign_memory`: given the removal
range `[start_addr, start_addr+size)` and one existing region, classify the
intersection exactly as the C branch ladder does (disjoint / remove whole /
shrink tail / shift head / split).  The first component is the region(s) kept
in place, the second is the split's high part, which the C code appends at the
end of the array (`dev->mem->regions + n`). -/
def unassignPieces (start_addr size : Nat) (reg : VhostMemoryRegion) :
    List VhostMemoryRegion × List VhostMemoryRegion :=
  if ranges_overlap reg.guest_phys_addr reg.memory_size start_addr size = false then
    ([reg], [])
  else
    let reglast := range_get_last reg.guest_phys_addr reg.memory_size
    let memlast := range_get_last start_addr size
    if start_addr ≤ reg.guest_phys_addr ∧ reglast ≤ memlast then
      ([], [])
    else if reglast ≤ memlast then
      ([{ reg with memory_size := start_addr - reg.guest_phys_addr }], [])
    else if start_addr ≤ reg.guest_phys_addr then
      let change := memlast + 1 - reg.guest_phys_addr
      ([{ guest_phys_addr := reg.guest_phys_addr + change,
          memory_size := reg.memory_size - change,
          userspace_addr := reg.userspace_addr + change }], [])
    else
      let change := memlast + 1 - reg.guest_phys_addr
      ([{ reg with memory_size := start_addr - reg.guest_phys_addr }],
       [{ guest_phys_addr := reg.guest_phys_addr + change,
          memory_size := reg.memory_size - change,
          userspace_addr := reg.userspace_addr + change }])

/-- `vhost_dev_unassign_memory`: remove `[start_addr, start_addr+size)` from
every region.  The compaction loop keeps surviving regions in order; a split's
high part is written at index `n` (the end of the array), which is what the
second concatenated block models. -/
def vhost_dev_unassign_memory (start_addr size : Nat)
    (regs : List VhostMemoryRegion) : List VhostMemoryRegion :=
  (regs.map (fun r => (unassignPieces start_addr size r).1)).flatten ++
  (regs.map (fun r => (unassignPieces start_addr size r).2)).flatten

/-- Loop state of `vhost_dev_assign_memory`: the output array built so far,
the index of the merged slot (the C `merged` pointer), and the running
`start_addr/size/uaddr` values that widen as neighbours are consumed. -/
structure AssignAcc where
  out : List VhostMemoryRegion
  mergedIdx : Option Nat
  start_addr : Nat
  size : Nat
  uaddr : Nat
deriving Repr

/-- One iteration of the `vhost_dev_assign_memory` loop: keep a region that is
not adjacent (in both gpa and hva, on either side) to the running range;
otherwise widen the running range over it, either creating the merged slot or
updating it in place (the C `--to` drop of the consumed neighbour). -/
def assignStep (acc : AssignAcc) (reg : VhostMemoryRegion) : AssignAcc :=
  let prlast := range_get_last reg.guest_phys_addr reg.memory_size
  let pmlast := range_get_last acc.start_addr acc.size
  let urlast := range_get_last reg.userspace_addr reg.memory_size
  let umlast := range_get_last acc.uaddr acc.size
  if (prlast + 1 ≠ acc.start_addr ∨ urlast + 1 ≠ acc.uaddr) ∧
     (pmlast + 1 ≠ reg.guest_phys_addr ∨ umlast + 1 ≠ reg.userspace_addr) then
    { acc with out := acc.out ++ [reg] }
  else
    let u := min acc.uaddr reg.userspace_addr
    let s := min acc.start_addr reg.guest_phys_addr
    let e := max pmlast prlast
    let m : VhostMemoryRegion := ⟨s, e - s + 1, u⟩
    match acc.mergedIdx with
    | none => { out := acc.out ++ [m], mergedIdx := some acc.out.length,
                start_addr := s, size := e - s + 1, uaddr := u }
    | some i => { out := acc.out.set i m, mergedIdx := some i,
                  start_addr := s, size := e - s + 1, uaddr := u }

/-- `vhost_dev_assign_memory`: called after `unassign` has cleared the range.
If no neighbour merged, the new region is appended at the end. -/
def vhost_dev_assign_memory (start_addr size uaddr : Nat)
    (regs : List VhostMemoryRegion) : List VhostMemoryRegion :=
  let acc := regs.foldl assignStep ⟨[], none, start_addr, size, uaddr⟩
  match acc.mergedIdx with
  | none => acc.out ++ [⟨acc.start_addr, acc.size, acc.uaddr⟩]
  | some _ => acc.out

/-- `vhost_dev_find_reg`: first region overlapping the given range. -/
def vhost_dev_find_reg (regs : List VhostMemoryRegion) (start_addr size : Nat) :
    Option VhostMemoryRegion :=
  regs.find? (fun reg =>
    ranges_overlap reg.guest_phys_addr reg.memory_size start_addr size)

/-- `vhost_dev_cmp_memory`: `true` iff a table push would be needed for this
mapping (no fully covering region with matching hva translation). -/
def vhost_dev_cmp_memory (regs : List VhostMemoryRegion)
    (start_addr size uaddr : Nat) : Bool :=
  match vhost_dev_find_reg regs start_addr size with
  | none => true
  | some reg =>
    let reglast := range_get_last reg.guest_phys_addr reg.memory_size
    let memlast := range_get_last start_addr size
    if start_addr < reg.guest_phys_addr ∨ reglast < memlast then true
    else decide (uaddr ≠ reg.userspace_addr + start_addr - reg.guest_phys_addr)

/-- Two regions occupy disjoint guest-physical intervals. -/
def regsDisjoint (r1 r2 : VhostMemoryRegion) : Prop :=
  r1.guest_phys_addr + r1.memory_size ≤ r2.guest_phys_addr ∨
  r2.guest_phys_addr + r2.memory_size ≤ r1.guest_phys_addr

instance (r1 r2 : VhostMemoryRegion) : Decidable (regsDisjoint r1 r2) := by
  unfold regsDisjoint; infer_instance

/-- Two regions are adjacent in both gpa and hva (on one side or the other):
exactly the condition under which `vhost_dev_assign_memory` merges. -/
def bothAdjacent (r1 r2 : VhostMemoryRegion) : Prop :=
  (r1.guest_phys_addr + r1.memory_size = r2.guest_phys_addr ∧
   r1.userspace_addr + r1.memory_size = r2.userspace_addr) ∨
  (r2.guest_phys_addr + r2.memory_size = r1.guest_phys_addr ∧
   r2.userspace_addr + r2.memory_size = r1.userspace_addr)

instance (r1 r2 : VhostMemoryRegion) : Decidable (bothAdjacent r1 r2) := by
  unfold bothAdjacent; infer_instance

/-- The data-model invariant on the region table: nonzero sizes and pairwise
disjoint guest-physical intervals. -/
def RTWellFormed (t : List VhostMemoryRegion) : Prop :=
  (∀ r ∈ t, 0 < r.memory_size) ∧ t.Pairwise regsDisjoint

/-- Merge-maximality: no two table entries are adjacent in both gpa and hva. -/
def RTMergeMaximal (t : List VhostMemoryRegion) : Prop :=
  t.Pairwise fun x y => ¬ bothAdjacent x y

/-- The full region-table invariant. -/
def RTInv (t : List VhostMemoryRegion) : Prop := RTWellFormed t ∧ RTMergeMaximal t

/-- A region-table mutation as performed by `vhost_set_memory`: a bare
`unassign`, or an `assign` preceded by the `unassign` of the same range
(the only way `vhost_dev_assign_memory` is ever reached). -/
inductive RTOp where
  | unassignOp (start_addr size : Nat)
  | assignOp (start_addr size uaddr : Nat)
deriving DecidableEq, Repr

/-- Apply one region-table operation. -/
def RTOp.apply (t : List VhostMemoryRegion) : RTOp → List VhostMemoryRegion
  | .unassignOp a sz => vhost_dev_unassign_memory a sz t
  | .assignOp a sz u =>
      vhost_dev_assign_memory a sz u (vhost_dev_unassign_memory a sz t)

/-- The operation's range has nonzero size (asserted by `vhost_set_memory`). -/
def RTOp.sizePos : RTOp → Prop
  | .unassignOp _ sz => 0 < sz
  | .assignOp _ sz _ => 0 < sz

instance (op : RTOp) : Decidable op.sizePos := by
  cases op <;> (unfold RTOp.sizePos; infer_instance)

/-- Apply a sequence of region-table operations, oldest first. -/
def applyRTOps (t : List VhostMemoryRegion) (ops : List RTOp) :
    List VhostMemoryRegion :=
  ops.foldl RTOp.apply t

/-- `struct vhost_virtqueue` (the fields the dirty-log paths use: the
guest-physical used-ring range). -/
structure VhostVirtqueue where
  used_phys : Nat
  used_size : Nat
deriving DecidableEq, Repr

/-- `struct vhost_dev` (the fields the modelled paths use).  The log buffer's
word contents are modelled separately (`vhost_dev_sync_region` acts on an
explicit word list); at the device level only `log_size` is tracked, since
that is all the control-plane paths consult. -/
structure VhostDev where
  mem : List VhostMemoryRegion
  vqs : List VhostVirtqueue
  log_size : Nat
  log_enabled : Bool
  started : Bool
deriving DecidableEq, Repr

/-- `vhost_get_log_size`: fold `MAX(log_size, last / VHOST_LOG_CHUNK + 1)`
over all regions, then over all virtqueue used-ranges, starting from 0.
`CHUNK` is `VHOST_LOG_CHUNK` (defined in `vhost.h`, outside this file's
source; kept as a parameter). -/
def vhost_get_log_size (CHUNK : Nat) (dev : VhostDev) : Nat :=
  let fromRegs := dev.mem.foldl
    (fun acc reg =>
      max acc (range_get_last reg.guest_phys_addr reg.memory_size / CHUNK + 1)) 0
  dev.vqs.foldl
    (fun acc vq => max acc ((vq.used_phys + vq.used_size - 1) / CHUNK + 1)) fromRegs

/-- Modelled from the spec: `total_log_chunks()` exactly as §4.1 states it,
"max over all regions and all virtqueue used-ranges of
`ceil(last_byte / CHUNK) + 1`" (so `ceil` applied to the last *byte*). -/
def total_log_chunks_claimed (CHUNK : Nat) (dev : VhostDev) : Nat :=
  ((dev.mem.map (fun reg =>
      (range_get_last reg.guest_phys_addr reg.memory_size + (CHUNK - 1)) / CHUNK + 1)) ++
   (dev.vqs.map (fun vq =>
      (vq.used_phys + vq.used_size - 1 + (CHUNK - 1)) / CHUNK + 1))).foldr max 0

/-- Modelled from the spec (amended): max over all regions and all virtqueue
used-ranges of `floor(last_byte / CHUNK) + 1`, i.e. of
`ceil((last_byte + 1) / CHUNK)` — the number of chunks needed to cover the
range — and `0` when there are no regions and no virtqueues. -/
def total_log_chunks_amended (CHUNK : Nat) (dev : VhostDev) : Nat :=
  ((dev.mem.map (fun reg =>
      (reg.guest_phys_addr + reg.memory_size + (CHUNK - 1)) / CHUNK)) ++
   (dev.vqs.map (fun vq =>
      (vq.used_phys + vq.used_size + (CHUNK - 1)) / CHUNK))).foldr max 0

/-- The set-bit positions of a log word, lowest first: the order in which the
`ffsll`/clear loop of `vhost_dev_sync_region` visits them.  The first argument
is fuel, always called with the word itself (a word's bit length never exceeds
its value for nonzero words). -/
def setBitsAux : Nat → Nat → List Nat
  | 0, _ => []
  | _ + 1, 0 => []
  | fuel + 1, w + 1 =>
    (if (w + 1) % 2 = 1 then [0] else []) ++
    (setBitsAux fuel ((w + 1) / 2)).map (· + 1)

/-- Set-bit positions of a word, ascending. -/
def setBits (w : Nat) : List Nat := setBitsAux w w

/-- The log-word indices `vhost_dev_sync_region` walks: `start / CHUNK` up to
`end / CHUNK` inclusive (`from` to `to - 1` in the C pointer loop), empty when
the intersection is empty. -/
def syncAccessedWords (CHUNK mfirst mlast rfirst rlast : Nat) : List Nat :=
  let start := max mfirst rfirst
  let e := min mlast rlast
  if e < start then []
  else List.range' (start / CHUNK) (e / CHUNK + 1 - start / CHUNK)

/-- `vhost_dev_sync_region`: intersect `[mfirst, mlast]` with
`[rfirst, rlast]`, walk the covering log words, read-and-clear each nonzero
word and report, for each set bit `bit`, the dirty byte
`offset_within_region + bit * PAGE` of size `PAGE` (`PAGE` is
`VHOST_LOG_PAGE`).  Returns the reported `(ram_addr, size)` list in emission
order together with the log after clearing.  Note: the C code also keeps a
local `addr` holding the word's starting guest address, incremented every
iteration but never read. -/
def vhost_dev_sync_region (CHUNK PAGE : Nat) (offset_within_region : Nat)
    (log : List Nat) (mfirst mlast rfirst rlast : Nat) :
    List (Nat × Nat) × List Nat :=
  (syncAccessedWords CHUNK mfirst mlast rfirst rlast).foldl
    (fun acc idx =>
      let w := acc.2.getD idx 0
      if w = 0 then acc
      else (acc.1 ++ (setBits w).map (fun bit =>
              (offset_within_region + bit * PAGE, PAGE)),
            acc.2.set idx 0))
    ([], log)

/-- Modelled from the spec: the dirty byte §4.3 says is reported for a set
bit at offset `bit` within the log word starting at guest address `addr`,
for an intersection starting at `s`:
`section.offset_within_region + (addr + bit*PAGE - s)`. -/
def specReportAddr (offset_within_region addr bit PAGE s : Nat) : Nat :=
  offset_within_region + (addr + bit * PAGE - s)

/-- The `(rfirst, rlast)` argument pairs with which `vhost_sync_dirty_bitmap`
invokes `vhost_dev_sync_region`: one call per table region and one per
virtqueue used-range; none when the log is disabled or the device is not
started. -/
def syncCalls (dev : VhostDev) : List (Nat × Nat) :=
  if dev.log_enabled = false ∨ dev.started = false then []
  else
    dev.mem.map (fun reg =>
      (reg.guest_phys_addr,
       range_get_last reg.guest_phys_addr reg.memory_size)) ++
    dev.vqs.map (fun vq =>
      (vq.used_phys, range_get_last vq.used_phys vq.used_size))

/-- A control-channel command, as observable on the accelerator fd.  The
`SetLogBase` payload is identified by the new log size (the base pointer
value is allocator-dependent); `SetFeatures` by its `VHOST_F_LOG_ALL` bit,
the only part the modelled paths vary. -/
inductive Cmd where
  | setLogBase (size : Nat)
  | setMemTable (regions : List VhostMemoryRegion)
  | setFeatures (log_all : Bool)
  | setVringAddr (idx : Nat) (log_all : Bool)
deriving DecidableEq, Repr

/-- The accelerator configuration visible through the control channel, for
the parts the log-toggle paths touch: the `VHOST_F_LOG_ALL` feature bit and
each vring's `VHOST_VRING_F_LOG` flag. -/
structure AccelState where
  features_log : Bool
  vring_log : List Bool
deriving DecidableEq, Repr

/-- Control-channel connection state: accelerator configuration, a command
counter (used to index the failure oracle), and the trace of issued
commands. -/
structure Ctl where
  st : AccelState
  tick : Nat
  trace : List Cmd
deriving DecidableEq, Repr

/-- Issue `VHOST_SET_FEATURES` (this is `vhost_dev_set_features`): the
payload is `acked_features`, plus the log bit iff `enable_log`.  A failed
command leaves the accelerator state unchanged.  Returns 0 on success and a
negative errno on failure, per the oracle. -/
def vhost_dev_set_features (oracle : Nat → Bool) (c : Ctl) (enable_log : Bool) :
    Ctl × Int :=
  if oracle c.tick then
    ({ st := { c.st with features_log := enable_log }, tick := c.tick + 1,
       trace := c.trace ++ [Cmd.setFeatures enable_log] }, 0)
  else
    ({ c with tick := c.tick + 1, trace := c.trace ++ [Cmd.setFeatures enable_log] }, -1)

/-- Issue `VHOST_SET_VRING_ADDR` for queue `idx` (this is
`vhost_virtqueue_set_addr`), with the log flag set iff `enable_log`. -/
def vhost_virtqueue_set_addr (oracle : Nat → Bool) (c : Ctl) (idx : Nat)
    (enable_log : Bool) : Ctl × Int :=
  if oracle c.tick then
    ({ st := { c.st with vring_log := c.st.vring_log.set idx enable_log },
       tick := c.tick + 1,
       trace := c.trace ++ [Cmd.setVringAddr idx enable_log] }, 0)
  else
    ({ c with
        tick := c.tick + 1
        trace := c.trace ++ [Cmd.setVringAddr idx enable_log] }, -1)

/-- Issue `VHOST_SET_LOG_BASE` for a log buffer of `size` words. -/
def ioctlSetLogBase (oracle : Nat → Bool) (c : Ctl) (size : Nat) : Ctl × Int :=
  if oracle c.tick then
    ({ c with tick := c.tick + 1, trace := c.trace ++ [Cmd.setLogBase size] }, 0)
  else
    ({ c with tick := c.tick + 1, trace := c.trace ++ [Cmd.setLogBase size] }, -1)

/-- Issue `VHOST_SET_MEM_TABLE` with the given region table. -/
def ioctlSetMemTable (oracle : Nat → Bool) (c : Ctl) (regs : List VhostMemoryRegion) :
    Ctl × Int :=
  if oracle c.tick then
    ({ c with tick := c.tick + 1, trace := c.trace ++ [Cmd.setMemTable regs] }, 0)
  else
    ({ c with tick := c.tick + 1, trace := c.trace ++ [Cmd.setMemTable regs] }, -1)

/-- `vhost_dev_log_resize`: allocate the new buffer, tell the accelerator the
new base (`assert(r >= 0)`: failure aborts, modelled as `none`), harvest the
old log range for every tracked section (those syncs issue no control-channel
commands and are modelled by `vhost_dev_sync_region` separately), free the old
buffer and record the new size. -/
def vhost_dev_log_resize (oracle : Nat → Bool) (dev : VhostDev) (size : Nat)
    (c : Ctl) : Option (VhostDev × Ctl) :=
  let p := ioctlSetLogBase oracle c size
  if p.2 < 0 then none
  else some ({ dev with log_size := size }, p.1)

/-- `vhost_set_memory` (the region-event handler body): sections whose memory
region has dirty logging enabled are forced to `add = false`; `size == 0` is
asserted (modelled as `none`); the no-change fast paths return without
touching anything; otherwise the table is mutated (`unassign`, then either
`assign` or a second `unassign`), and if the device is started the table is
pushed, with the log grown before / shrunk after the push when the log is
enabled.  `vhost_verify_ring_mappings` issues no control-channel commands and
its asserted success is assumed (it depends only on the external mapper).
`CHUNK` is `VHOST_LOG_CHUNK` and `SLACK` is `VHOST_LOG_BUFFER`, both from
headers outside this file's source. -/
def vhost_set_memory (oracle : Nat → Bool) (CHUNK SLACK : Nat) (dev : VhostDev)
    (start_addr size hva : Nat) (log_dirty add0 : Bool) (c : Ctl) :
    Option (VhostDev × Ctl) :=
  let add := if log_dirty then false else add0
  if size = 0 then none
  else if (if add then !vhost_dev_cmp_memory dev.mem start_addr size hva
           else (vhost_dev_find_reg dev.mem start_addr size).isNone) then
    some (dev, c)
  else
    let mem1 := vhost_dev_unassign_memory start_addr size dev.mem
    let mem2 := if add then vhost_dev_assign_memory start_addr size hva mem1
                else vhost_dev_unassign_memory start_addr size mem1
    let dev1 := { dev with mem := mem2 }
    if dev1.started = false then some (dev1, c)
    else if dev1.log_enabled = false then
      let p := ioctlSetMemTable oracle c mem2
      if p.2 < 0 then none else some (dev1, p.1)
    else
      let log_size := vhost_get_log_size CHUNK dev1
      let grown := if dev1.log_size < log_size then
          vhost_dev_log_resize oracle dev1 (log_size + SLACK) c
        else some (dev1, c)
      match grown with
      | none => none
      | some (dev2, c2) =>
        let p := ioctlSetMemTable oracle c2 mem2
        if p.2 < 0 then none
        else if log_size + SLACK < dev2.log_size then
          match vhost_dev_log_resize oracle dev2 log_size p.1 with
          | none => none
          | some (dev3, c3) => some (dev3, c3)
        else some (dev2, p.1)

/-- The unwind loop of `vhost_dev_set_log` (`for (; i >= 0; --i)`): re-push
the addresses of queues `i` down to `0` with the device's previous log flag;
each re-push is asserted to succeed (`assert(t >= 0)`), so a failure aborts
(modelled as `none`). -/
def unwindAddrs (oracle : Nat → Bool) (old_log : Bool) : Nat → Ctl → Option Ctl
  | 0, c =>
    let p := vhost_virtqueue_set_addr oracle c 0 old_log
    if p.2 < 0 then none else some p.1
  | i + 1, c =>
    let p := vhost_virtqueue_set_addr oracle c (i + 1) old_log
    if p.2 < 0 then none else unwindAddrs oracle old_log i p.1

/-- The forward loop of `vhost_dev_set_log`: push queue addresses `i`,
`i+1`, … with the new log flag while `i < n`; on the first failure, run the
unwind from the failing index and restore the previous feature bits (also
asserted to succeed), returning the original error.  The first `Nat` argument
is fuel (the caller passes `n`, and `i` advances with each unit of fuel). -/
def vqLoop (oracle : Nat → Bool) (enable_log old_log : Bool) (n : Nat) :
    Nat → Nat → Ctl → Option (Ctl × Int)
  | 0, _, c => some (c, 0)
  | fuel + 1, i, c =>
    if i < n then
      let p := vhost_virtqueue_set_addr oracle c i enable_log
      if p.2 < 0 then
        match unwindAddrs oracle old_log i p.1 with
        | none => none
        | some c3 =>
          let q := vhost_dev_set_features oracle c3 old_log
          if q.2 < 0 then none else some (q.1, p.2)
      else vqLoop oracle enable_log old_log n fuel (i + 1) p.1
    else some (c, 0)

/-- `vhost_dev_set_log`: push the feature bits with the new log flag (a
failure here returns at once), then push every queue's addresses with the new
flag, unwinding on partial failure. -/
def vhost_dev_set_log (oracle : Nat → Bool) (dev : VhostDev) (enable_log : Bool)
    (c : Ctl) : Option (Ctl × Int) :=
  let p := vhost_dev_set_features oracle c enable_log
  if p.2 < 0 then some (p.1, p.2)
  else vqLoop oracle enable_log dev.log_enabled dev.vqs.length dev.vqs.length 0 p.1

/-- `vhost_migration_log`: toggle migration logging.  No-op when the flag
already matches; just record it when not started; when running, disabling
pushes the log-free configuration then frees the buffer, and enabling resizes
the buffer (pushing the new base) then pushes the logging configuration.
`log_enabled` is only updated after the pushes succeed. -/
def vhost_migration_log (oracle : Nat → Bool) (CHUNK : Nat) (dev : VhostDev)
    (enable : Bool) (c : Ctl) : Option (VhostDev × Ctl × Int) :=
  if enable = dev.log_enabled then some (dev, c, 0)
  else if dev.started = false then
    some ({ dev with log_enabled := enable }, c, 0)
  else if enable = false then
    match vhost_dev_set_log oracle dev false c with
    | none => none
    | some (c1, r) =>
      if r < 0 then some (dev, c1, r)
      else some ({ dev with log_size := 0, log_enabled := false }, c1, 0)
  else
    match vhost_dev_log_resize oracle dev (vhost_get_log_size CHUNK dev) c with
    | none => none
    | some (dev1, c1) =>
      match vhost_dev_set_log oracle dev1 true c1 with
      | none => none
      | some (c2, r) =>
        if r < 0 then some (dev1, c2, r)
        else some ({ dev1 with log_enabled := true }, c2, 0)

/-! ### Basic facts about range overlap -/

theorem ranges_overlap_eq_true_iff (f1 l1 f2 l2 : Nat) :
    ranges_overlap f1 l1 f2 l2 = true ↔
      f1 ≤ f2 + l2 - 1 ∧ f2 ≤ f1 + l1 - 1 := by
  simp [ranges_overlap, range_get_last]

theorem ranges_overlap_eq_false_iff (f1 l1 f2 l2 : Nat) :
    ranges_overlap f1 l1 f2 l2 = false ↔
      (f2 + l2 - 1 < f1 ∨ f1 + l1 - 1 < f2) := by
  simp [ranges_overlap, range_get_last]
  omega

/-! ### `vhost_dev_unassign_memory`: structure of the produced pieces -/

theorem mem_unassign_iff (a sz : Nat) (t : List VhostMemoryRegion)
    (p : VhostMemoryRegion) :
    p ∈ vhost_dev_unassign_memory a sz t ↔
      ∃ r ∈ t, p ∈ (unassignPieces a sz r).1 ∨ p ∈ (unassignPieces a sz r).2 := by
  simp only [vhost_dev_unassign_memory, List.mem_append, List.mem_flatten,
    List.mem_map]
  constructor
  · rintro (⟨l, ⟨r, hr, rfl⟩, hp⟩ | ⟨l, ⟨r, hr, rfl⟩, hp⟩)
    · exact ⟨r, hr, Or.inl hp⟩
    · exact ⟨r, hr, Or.inr hp⟩
  · rintro ⟨r, hr, hp | hp⟩
    · exact Or.inl ⟨_, ⟨r, hr, rfl⟩, hp⟩
    · exact Or.inr ⟨_, ⟨r, hr, rfl⟩, hp⟩

/-- Every piece produced by one `unassign` classification step avoids the
removed range `[a, a+sz)` (at the level of the C overlap test). -/
theorem unassignPieces_no_overlap (a sz : Nat)
    (reg p : VhostMemoryRegion)
    (hp : p ∈ (unassignPieces a sz reg).1 ∨ p ∈ (unassignPieces a sz reg).2) :
    ranges_overlap p.guest_phys_addr p.memory_size a sz = false := by
  simp only [unassignPieces] at hp
  split at hp
  · rename_i hov
    rcases hp with hp | hp
    · simp at hp; subst hp; exact hov
    · simp at hp
  · rename_i hov
    rw [Bool.not_eq_false] at hov
    obtain ⟨h1, h2⟩ := (ranges_overlap_eq_true_iff _ _ _ _).1 hov
    rw [ranges_overlap_eq_false_iff]
    split at hp
    · simp at hp
    · rename_i hcase1
      split at hp
      · rcases hp with hp | hp
        · simp at hp; subst hp
          simp only [range_get_last] at *
          omega
        · simp at hp
      · rename_i hcase2
        split at hp
        · rcases hp with hp | hp
          · simp at hp; subst hp
            simp only [range_get_last] at *
            omega
          · simp at hp
        · rcases hp with hp | hp <;>
          · simp at hp; subst hp
            simp only [range_get_last] at *
            omega

theorem unassign_no_overlap (a sz : Nat)
    (t : List VhostMemoryRegion) :
    ∀ p ∈ vhost_dev_unassign_memory a sz t,
      ranges_overlap p.guest_phys_addr p.memory_size a sz = false := by
  intro p hp
  obtain ⟨r, _, hpr⟩ := (mem_unassign_iff a sz t p).1 hp
  exact unassignPieces_no_overlap a sz r p hpr

/-- A range that overlaps nothing is unassigned without effect. -/
theorem unassign_eq_of_no_overlap (a sz : Nat) (t : List VhostMemoryRegion)
    (h : ∀ p ∈ t, ranges_overlap p.guest_phys_addr p.memory_size a sz = false) :
    vhost_dev_unassign_memory a sz t = t := by
  have hpcs : ∀ r ∈ t, unassignPieces a sz r = ([r], []) := by
    intro r hr
    simp [unassignPieces, h r hr]
  clear h
  unfold vhost_dev_unassign_memory
  induction t with
  | nil => simp
  | cons r rest ih =>
    have h1 := hpcs r (by simp)
    have h2 : ∀ r' ∈ rest, unassignPieces a sz r' = ([r'], []) := by
      intro r' hr'; exact hpcs r' (List.mem_cons_of_mem _ hr')
    have ih' := ih h2
    simp only [List.map_cons, List.flatten_cons, h1]
    simp only [List.map_cons, List.flatten_cons] at ih'
    simp only [List.singleton_append, List.nil_append] at ih' ⊢
    rw [List.cons_append, ih']

/-- C8: for every region table state and every range, unassigning the same
range twice leaves the table identical (as a list) to its state after the
first call; in particular the second `vhost_dev_unassign_memory` performed by
the `add = false` path of `vhost_set_memory` has no effect.  The size
hypothesis reflects the `assert(size)` guarding every caller. -/
theorem unassign_unassign_idempotent (a sz : Nat) (t : List VhostMemoryRegion)
    (hsz : 0 < sz) :
    vhost_dev_unassign_memory a sz (vhost_dev_unassign_memory a sz t) =
      vhost_dev_unassign_memory a sz t :=
  unassign_eq_of_no_overlap a sz _ (unassign_no_overlap a sz t)

theorem unassign_unassign_idempotent_witness :
    (0 < 0x4000) ∧
    vhost_dev_unassign_memory 0x4000 0x4000
        (vhost_dev_unassign_memory 0x4000 0x4000 [⟨0, 0x10000, 0x80000000⟩]) =
      vhost_dev_unassign_memory 0x4000 0x4000 [⟨0, 0x10000, 0x80000000⟩] :=
  ⟨by decide,
   unassign_unassign_idempotent 0x4000 0x4000 [⟨0, 0x10000, 0x80000000⟩] (by decide)⟩

/-! ### `vhost_get_log_size` bounds and shape -/

theorem foldl_max_init_le (l : List Nat) (a : Nat) : a ≤ l.foldl max a := by
  induction l generalizing a with
  | nil => simp
  | cons x xs ih => exact le_trans (le_max_left a x) (ih (max a x))

theorem foldl_max_mem_le (l : List Nat) (a : Nat) :
    ∀ x ∈ l, x ≤ l.foldl max a := by
  induction l generalizing a with
  | nil => simp
  | cons y ys ih =>
    intro x hx
    rcases List.mem_cons.1 hx with rfl | hx
    · exact le_trans (le_max_right a x) (foldl_max_init_le ys (max a x))
    · exact ih (max a y) x hx

theorem region_le_log_size (CHUNK : Nat) (dev : VhostDev) :
    ∀ reg ∈ dev.mem,
      range_get_last reg.guest_phys_addr reg.memory_size / CHUNK + 1 ≤
        vhost_get_log_size CHUNK dev := by
  intro reg hreg
  unfold vhost_get_log_size
  dsimp only
  rw [← List.foldl_map (fun vq : VhostVirtqueue =>
      (vq.used_phys + vq.used_size - 1) / CHUNK + 1) max]
  rw [← List.foldl_map (fun reg : VhostMemoryRegion =>
      range_get_last reg.guest_phys_addr reg.memory_size / CHUNK + 1) max]
  refine le_trans ?_ (foldl_max_init_le _ _)
  exact foldl_max_mem_le _ 0 _ (List.mem_map_of_mem _ hreg)

theorem vq_le_log_size (CHUNK : Nat) (dev : VhostDev) :
    ∀ vq ∈ dev.vqs,
      (vq.used_phys + vq.used_size - 1) / CHUNK + 1 ≤
        vhost_get_log_size CHUNK dev := by
  intro vq hvq
  unfold vhost_get_log_size
  dsimp only
  rw [← List.foldl_map (fun vq : VhostVirtqueue =>
      (vq.used_phys + vq.used_size - 1) / CHUNK + 1) max]
  exact foldl_max_mem_le _ _ _ (List.mem_map_of_mem _ hvq)

/-- C10: whenever `vhost_sync_dirty_bitmap` (device started, log enabled)
invokes the per-region sync with a nonempty intersection, and the log covers
every region and virtqueue used-range in the sense of `vhost_get_log_size`
(`last / CHUNK < log_size` for each), then both assertions of
`vhost_dev_sync_region` hold (`start / CHUNK < log_size` and
`end / CHUNK < log_size`) and every log word the loop reads and clears lies
at an index strictly below `log_size`. -/
theorem sync_region_access_in_bounds (CHUNK : Nat) (dev : VhostDev)
    (hcov : vhost_get_log_size CHUNK dev ≤ dev.log_size)
    (mfirst mlast : Nat) :
    ∀ pr ∈ syncCalls dev, max mfirst pr.1 ≤ min mlast pr.2 →
      max mfirst pr.1 / CHUNK < dev.log_size ∧
      min mlast pr.2 / CHUNK < dev.log_size ∧
      ∀ i ∈ syncAccessedWords CHUNK mfirst mlast pr.1 pr.2, i < dev.log_size := by
  intro pr hpr hne
  have hlast : pr.2 / CHUNK + 1 ≤ dev.log_size := by
    unfold syncCalls at hpr
    split at hpr
    · simp at hpr
    · rcases List.mem_append.1 hpr with h | h
      · obtain ⟨reg, hreg, rfl⟩ := List.mem_map.1 h
        exact le_trans (region_le_log_size CHUNK dev reg hreg) hcov
      · obtain ⟨vq, hvq, rfl⟩ := List.mem_map.1 h
        simp only [range_get_last]
        exact le_trans (vq_le_log_size CHUNK dev vq hvq) hcov
  have hend : min mlast pr.2 / CHUNK < dev.log_size :=
    lt_of_le_of_lt (Nat.div_le_div_right (min_le_right _ _))
      (Nat.lt_of_succ_le hlast)
  have hstart : max mfirst pr.1 / CHUNK < dev.log_size :=
    lt_of_le_of_lt (Nat.div_le_div_right hne) hend
  refine ⟨hstart, hend, ?_⟩
  intro i hi
  unfold syncAccessedWords at hi
  rw [if_neg (by omega)] at hi
  obtain ⟨-, hlt⟩ := List.mem_range'_1.1 hi
  have hse : max mfirst pr.1 / CHUNK ≤ min mlast pr.2 / CHUNK :=
    Nat.div_le_div_right hne
  omega

theorem sync_region_access_in_bounds_witness :
    (vhost_get_log_size 262144 ⟨[⟨0, 262144, 0⟩], [⟨262144, 4096⟩], 0, true, true⟩ ≤
      (⟨[⟨0, 262144, 0⟩], [⟨262144, 4096⟩], 0, true, true⟩ : VhostDev).log_size + 2) ∧
    ((0, 262143) ∈ syncCalls ⟨[⟨0, 262144, 0⟩], [⟨262144, 4096⟩], 2, true, true⟩ ∧
     max 0 0 ≤ min 524287 262143 ∧
     max 0 0 / 262144 < 2 ∧ min 524287 262143 / 262144 < 2 ∧
     ∀ i ∈ syncAccessedWords 262144 0 524287 0 262143, i < 2) := by
  refine ⟨by decide, by decide, by decide, ?_⟩
  have h := sync_region_access_in_bounds 262144
    ⟨[⟨0, 262144, 0⟩], [⟨262144, 4096⟩], 2, true, true⟩ (by decide) 0 524287
    (0, 262143) (by decide) (by decide)
  exact ⟨h.1, h.2.1, h.2.2⟩

theorem foldr_max_append (l1 l2 : List Nat) :
    (l1 ++ l2).foldr max 0 = max (l1.foldr max 0) (l2.foldr max 0) := by
  induction l1 with
  | nil => simp
  | cons x xs ih => simp [ih, max_assoc]

theorem foldl_max_eq_foldr (l : List Nat) (a : Nat) :
    l.foldl max a = max a (l.foldr max 0) := by
  induction l generalizing a with
  | nil => simp
  | cons x xs ih =>
    simp only [List.foldl_cons, List.foldr_cons, ih (max a x)]
    rw [max_assoc]

theorem succ_div_of_pos (m c : Nat) (hm : 0 < m) (hc : 0 < c) :
    (m - 1) / c + 1 = (m + (c - 1)) / c := by
  have h1 : m + (c - 1) = (m - 1) + c := by omega
  rw [h1, Nat.add_div_right _ hc]

/-- C4 (amended): `vhost_get_log_size` equals the maximum, over all regions
and all virtqueue used-ranges, of `floor(last_byte / CHUNK) + 1`, i.e. of
`ceil((last_byte + 1) / CHUNK)` — the chunk count covering the range — and 0
when there is nothing to cover.  (The claim's `ceil(last_byte / CHUNK) + 1`
overshoots whenever `last_byte` is not a multiple of `CHUNK`; see the
counterexample theorem.) -/
theorem get_log_size_eq_amended (CHUNK : Nat) (dev : VhostDev) (hc : 0 < CHUNK)
    (hmem : ∀ reg ∈ dev.mem, 0 < reg.memory_size)
    (hvq : ∀ vq ∈ dev.vqs, 0 < vq.used_size) :
    vhost_get_log_size CHUNK dev = total_log_chunks_amended CHUNK dev := by
  unfold vhost_get_log_size total_log_chunks_amended
  dsimp only
  rw [← List.foldl_map (fun vq : VhostVirtqueue =>
      (vq.used_phys + vq.used_size - 1) / CHUNK + 1) max]
  rw [← List.foldl_map (fun reg : VhostMemoryRegion =>
      range_get_last reg.guest_phys_addr reg.memory_size / CHUNK + 1) max]
  rw [foldr_max_append, foldl_max_eq_foldr, foldl_max_eq_foldr]
  have hmemeq : dev.mem.map (fun reg : VhostMemoryRegion =>
      range_get_last reg.guest_phys_addr reg.memory_size / CHUNK + 1) =
      dev.mem.map (fun reg : VhostMemoryRegion =>
      (reg.guest_phys_addr + reg.memory_size + (CHUNK - 1)) / CHUNK) := by
    refine List.map_congr_left ?_
    intro reg hreg
    simp only [range_get_last]
    exact succ_div_of_pos _ _ (by have := hmem reg hreg; omega) hc
  have hvqeq : dev.vqs.map (fun vq : VhostVirtqueue =>
      (vq.used_phys + vq.used_size - 1) / CHUNK + 1) =
      dev.vqs.map (fun vq : VhostVirtqueue =>
      (vq.used_phys + vq.used_size + (CHUNK - 1)) / CHUNK) := by
    refine List.map_congr_left ?_
    intro vq hvq1
    exact succ_div_of_pos _ _ (by have := hvq vq hvq1; omega) hc
  rw [hmemeq, hvqeq]
  simp [max_comm]

/-- C4 counterexample: for a single region covering exactly one chunk
(`gpa = 0`, `size = CHUNK`, so `last_byte = CHUNK - 1`), the code's
`vhost_get_log_size` returns 1 chunk, but the claimed formula
`ceil(last_byte / CHUNK) + 1` returns 2.  (`CHUNK = 262144`, the 64-bit
`VHOST_LOG_CHUNK`.) -/
theorem get_log_size_ne_claimed :
    vhost_get_log_size 262144 ⟨[⟨0, 262144, 0⟩], [], 0, false, false⟩ = 1 ∧
    total_log_chunks_claimed 262144 ⟨[⟨0, 262144, 0⟩], [], 0, false, false⟩ = 2 ∧
    vhost_get_log_size 262144 ⟨[⟨0, 262144, 0⟩], [], 0, false, false⟩ ≠
      total_log_chunks_claimed 262144 ⟨[⟨0, 262144, 0⟩], [], 0, false, false⟩ := by
  refine ⟨by decide, by decide, by decide⟩

theorem get_log_size_eq_amended_witness :
    ((0:Nat) < 262144 ∧
     (∀ reg ∈ [(⟨0, 262144, 0⟩ : VhostMemoryRegion)], 0 < reg.memory_size) ∧
     (∀ vq ∈ [(⟨262144, 4096⟩ : VhostVirtqueue)], 0 < vq.used_size)) ∧
    vhost_get_log_size 262144 ⟨[⟨0, 262144, 0⟩], [⟨262144, 4096⟩], 0, false, false⟩ =
      total_log_chunks_amended 262144
        ⟨[⟨0, 262144, 0⟩], [⟨262144, 4096⟩], 0, false, false⟩ :=
  ⟨⟨by decide, by decide, by decide⟩,
   get_log_size_eq_amended 262144 ⟨[⟨0, 262144, 0⟩], [⟨262144, 4096⟩], 0, false, false⟩
     (by decide) (by decide) (by decide)⟩

/-- C1: at a concrete failing input the dirty byte the code reports differs
from the one the claim specifies.  With `CHUNK = 262144`, `PAGE = 4096`,
`offset_within_region = 0`, intersection `[s, e] = [0, 2*CHUNK - 1]` and the
log holding a single set bit (bit 0 of word 1, i.e. the page at guest address
`CHUNK`), `vhost_dev_sync_region` reports the dirty byte `0` — it computes
`offset_within_region + bit * PAGE`, never adding `addr - s` (its local
`addr` is incremented each word but never read) — whereas the claimed
address `offset_within_region + (addr + bit*PAGE - s)` is `262144`. -/
theorem sync_region_report_ne_spec :
    (vhost_dev_sync_region 262144 4096 0 [0, 1] 0 524287 0 524287).1 =
      [(0, 4096)] ∧
    specReportAddr 0 262144 0 4096 0 = 262144 ∧
    ((0:Nat), (4096:Nat)).1 ≠ specReportAddr 0 262144 0 4096 0 := by
  refine ⟨by decide, by decide, by decide⟩

/-! ### Trace facts for the control-channel commands -/

theorem log_resize_some (oracle : Nat → Bool) (dev : VhostDev) (size : Nat)
    (c : Ctl) (dev' : VhostDev) (c' : Ctl)
    (h : vhost_dev_log_resize oracle dev size c = some (dev', c')) :
    c'.trace = c.trace ++ [Cmd.setLogBase size] ∧
      dev' = { dev with log_size := size } := by
  unfold vhost_dev_log_resize ioctlSetLogBase at h
  split at h
  · dsimp only at h
    rw [if_neg (by norm_num)] at h
    simp only [Option.some.injEq, Prod.mk.injEq] at h
    obtain ⟨h1, h2⟩ := h
    subst h1; subst h2
    exact ⟨rfl, rfl⟩
  · dsimp only at h
    rw [if_pos (by norm_num)] at h
    simp at h

theorem set_mem_table_trace (oracle : Nat → Bool) (c : Ctl)
    (regs : List VhostMemoryRegion) :
    (ioctlSetMemTable oracle c regs).1.trace =
      c.trace ++ [Cmd.setMemTable regs] := by
  unfold ioctlSetMemTable
  split <;> rfl

/-- C3: on the region-event path with the device started and the log enabled
(and past the no-change fast path), with `need` the log size recomputed after
the table mutation: the trace of control-channel commands is exactly
a `SetLogBase (need + SLACK)` grow iff `need` exceeds the current log size,
then the `SetMemTable` push of the mutated table, then a `SetLogBase need`
shrink iff the (post-grow) log size exceeds `need + SLACK` — equivalently iff
the pre-grow size already exceeded it.  No other relative ordering of
log-resize and table-push occurs on this path. -/
theorem set_memory_grow_push_shrink (oracle : Nat → Bool) (CHUNK SLACK : Nat)
    (dev : VhostDev) (start_addr size hva : Nat) (log_dirty add0 : Bool)
    (c : Ctl) (dev2 : VhostDev) (c2 : Ctl)
    (hrun : vhost_set_memory oracle CHUNK SLACK dev start_addr size hva
        log_dirty add0 c = some (dev2, c2))
    (hstarted : dev.started = true) (hlog : dev.log_enabled = true)
    (hnoskip : (if (if log_dirty then false else add0) = true then
        !vhost_dev_cmp_memory dev.mem start_addr size hva
      else (vhost_dev_find_reg dev.mem start_addr size).isNone) = false) :
    c2.trace = c.trace ++
      ((let mem2 := if (if log_dirty then false else add0) = true then
          vhost_dev_assign_memory start_addr size hva
            (vhost_dev_unassign_memory start_addr size dev.mem)
        else vhost_dev_unassign_memory start_addr size
            (vhost_dev_unassign_memory start_addr size dev.mem)
       let need := vhost_get_log_size CHUNK { dev with mem := mem2 }
       (if dev.log_size < need then [Cmd.setLogBase (need + SLACK)] else []) ++
       [Cmd.setMemTable mem2] ++
       (if need + SLACK < dev.log_size then [Cmd.setLogBase need] else []))) := by
  by_cases hsz : size = 0
  · rw [show vhost_set_memory oracle CHUNK SLACK dev start_addr size hva
        log_dirty add0 c = none by unfold vhost_set_memory; rw [if_pos hsz]] at hrun
    simp at hrun
  unfold vhost_set_memory at hrun
  dsimp only at hrun
  rw [if_neg hsz, hnoskip] at hrun
  rw [if_neg (show ¬(false = true) from by decide)] at hrun
  set M := if (if log_dirty = true then false else add0) = true then
      vhost_dev_assign_memory start_addr size hva
        (vhost_dev_unassign_memory start_addr size dev.mem)
    else vhost_dev_unassign_memory start_addr size
        (vhost_dev_unassign_memory start_addr size dev.mem) with hM
  rw [if_neg (show ¬(dev.started = false) from by simp [hstarted])] at hrun
  rw [if_neg (show ¬(dev.log_enabled = false) from by simp [hlog])] at hrun
  set need := vhost_get_log_size CHUNK { dev with mem := M } with hneed
  dsimp only
  rw [← hneed]
  by_cases hgrow : dev.log_size < need
  · rw [if_pos hgrow] at hrun
    rw [if_pos hgrow]
    rcases hres : vhost_dev_log_resize oracle { dev with mem := M }
        (need + SLACK) c with _ | ⟨devA, cA⟩
    · rw [hres] at hrun; simp at hrun
    rw [hres] at hrun
    obtain ⟨htrA, hdevA⟩ := log_resize_some _ _ _ _ _ _ hres
    dsimp only at hrun
    split at hrun
    · simp at hrun
    · rw [hdevA] at hrun
      dsimp only at hrun
      rw [if_neg (show ¬(need + SLACK < need + SLACK) from by omega)] at hrun
      rw [if_neg (show ¬(need + SLACK < dev.log_size) from by omega)]
      simp only [Option.some.injEq, Prod.mk.injEq] at hrun
      obtain ⟨-, h2⟩ := hrun
      subst h2
      rw [set_mem_table_trace, htrA]
      simp
  · rw [if_neg hgrow] at hrun
    rw [if_neg hgrow]
    dsimp only at hrun
    split at hrun
    · simp at hrun
    · by_cases hshrink : need + SLACK < dev.log_size
      · rw [if_pos (show need + SLACK <
            ({ dev with mem := M } : VhostDev).log_size from hshrink)] at hrun
        rw [if_pos hshrink]
        rcases hres : vhost_dev_log_resize oracle { dev with mem := M } need
            (ioctlSetMemTable oracle c M).1 with _ | ⟨devB, cB⟩
        · rw [hres] at hrun; simp at hrun
        rw [hres] at hrun
        obtain ⟨htrB, -⟩ := log_resize_some _ _ _ _ _ _ hres
        dsimp only at hrun
        simp only [Option.some.injEq, Prod.mk.injEq] at hrun
        obtain ⟨-, h2⟩ := hrun
        subst h2
        rw [htrB, set_mem_table_trace]
        simp
      · rw [if_neg (show ¬(need + SLACK <
            ({ dev with mem := M } : VhostDev).log_size) from hshrink)] at hrun
        rw [if_neg hshrink]
        simp only [Option.some.injEq, Prod.mk.injEq] at hrun
        obtain ⟨-, h2⟩ := hrun
        subst h2
        rw [set_mem_table_trace]
        simp

theorem set_memory_grow_push_shrink_witness :
    (vhost_set_memory (fun _ => true) 262144 512
        ⟨[⟨0, 4096, 1048576⟩], [], 1, true, true⟩ 524288 4096 2097152 false true
        ⟨⟨true, []⟩, 0, []⟩ =
      some (⟨[⟨0, 4096, 1048576⟩, ⟨524288, 4096, 2097152⟩], [], 515, true, true⟩,
        ⟨⟨true, []⟩, 2,
         [Cmd.setLogBase 515,
          Cmd.setMemTable [⟨0, 4096, 1048576⟩, ⟨524288, 4096, 2097152⟩]]⟩)) ∧
    (⟨[⟨0, 4096, 1048576⟩], [], 1, true, true⟩ : VhostDev).started = true ∧
    (⟨[⟨0, 4096, 1048576⟩], [], 1, true, true⟩ : VhostDev).log_enabled = true ∧
    (Ctl.trace ⟨⟨true, []⟩, 2,
      [Cmd.setLogBase 515,
       Cmd.setMemTable [⟨0, 4096, 1048576⟩, ⟨524288, 4096, 2097152⟩]]⟩ =
     Ctl.trace ⟨⟨true, []⟩, 0, []⟩ ++
      ((let mem2 := if (if false then false else true) = true then
          vhost_dev_assign_memory 524288 4096 2097152
            (vhost_dev_unassign_memory 524288 4096
              (VhostDev.mem ⟨[⟨0, 4096, 1048576⟩], [], 1, true, true⟩))
        else vhost_dev_unassign_memory 524288 4096
            (vhost_dev_unassign_memory 524288 4096
              (VhostDev.mem ⟨[⟨0, 4096, 1048576⟩], [], 1, true, true⟩))
       let need := vhost_get_log_size 262144
         { (⟨[⟨0, 4096, 1048576⟩], [], 1, true, true⟩ : VhostDev) with mem := mem2 }
       (if (⟨[⟨0, 4096, 1048576⟩], [], 1, true, true⟩ : VhostDev).log_size < need then
          [Cmd.setLogBase (need + 512)] else []) ++
       [Cmd.setMemTable mem2] ++
       (if need + 512 < (⟨[⟨0, 4096, 1048576⟩], [], 1, true, true⟩ : VhostDev).log_size then
          [Cmd.setLogBase need] else [])))) := by
  refine ⟨by decide, rfl, rfl, ?_⟩
  exact set_memory_grow_push_shrink (fun _ => true) 262144 512
    ⟨[⟨0, 4096, 1048576⟩], [], 1, true, true⟩ 524288 4096 2097152 false true
    ⟨⟨true, []⟩, 0, []⟩
    ⟨[⟨0, 4096, 1048576⟩, ⟨524288, 4096, 2097152⟩], [], 515, true, true⟩
    ⟨⟨true, []⟩, 2,
      [Cmd.setLogBase 515,
       Cmd.setMemTable [⟨0, 4096, 1048576⟩, ⟨524288, 4096, 2097152⟩]]⟩
    (by decide) rfl rfl (by decide)

/-! ### `vhost_dev_set_log` failure unwinding -/

theorem set_addr_st_cases (oracle : Nat → Bool) (c : Ctl) (idx : Nat) (b : Bool) :
    (vhost_virtqueue_set_addr oracle c idx b).1.st =
      (if oracle c.tick then
        { c.st with vring_log := c.st.vring_log.set idx b } else c.st) ∧
    ((vhost_virtqueue_set_addr oracle c idx b).2 < 0 ↔ oracle c.tick = false) := by
  unfold vhost_virtqueue_set_addr
  split <;> simp_all

theorem set_features_st_cases (oracle : Nat → Bool) (c : Ctl) (b : Bool) :
    (vhost_dev_set_features oracle c b).1.st =
      (if oracle c.tick then { c.st with features_log := b } else c.st) ∧
    ((vhost_dev_set_features oracle c b).2 < 0 ↔ oracle c.tick = false) := by
  unfold vhost_dev_set_features
  split <;> simp_all

/-- Effect of the unwind loop on the accelerator state: queue flags `0 … i`
are forced to the old value, everything else is untouched. -/
theorem unwindAddrs_st (oracle : Nat → Bool) (old_log : Bool) :
    ∀ (i : Nat) (c c3 : Ctl), unwindAddrs oracle old_log i c = some c3 →
      c3.st.features_log = c.st.features_log ∧
      c3.st.vring_log.length = c.st.vring_log.length ∧
      ∀ j, c3.st.vring_log[j]? =
        if j ≤ i then c.st.vring_log[j]?.map (fun _ => old_log)
        else c.st.vring_log[j]? := by
  intro i
  induction i with
  | zero =>
    intro c c3 h
    unfold unwindAddrs at h
    dsimp only at h
    obtain ⟨hst, hfail⟩ := set_addr_st_cases oracle c 0 old_log
    split at h
    · simp at h
    · rename_i hok
      simp only [Option.some.injEq] at h
      subst h
      rw [hst, if_pos (by rcases hx : oracle c.tick with _ | _ <;> simp_all)]
      refine ⟨rfl, by simp, ?_⟩
      intro j
      rcases Nat.eq_zero_or_pos j with rfl | hj
      · simp only [Nat.le_refl, if_pos]
        rw [List.getElem?_set]
        simp only [if_pos rfl]
        rcases hlm : c.st.vring_log[0]? with _ | b
        · have : ¬ 0 < c.st.vring_log.length := by
            intro hcon
            rw [List.getElem?_eq_getElem hcon] at hlm
            simp at hlm
          rw [if_neg this]
          simp
        · have : 0 < c.st.vring_log.length := by
            by_contra hcon
            rw [List.getElem?_eq_none (by omega)] at hlm
            simp at hlm
          rw [if_pos this]
          simp
      · rw [if_neg (by omega)]
        rw [List.getElem?_set, if_neg (by omega)]
  | succ i ih =>
    intro c c3 h
    unfold unwindAddrs at h
    dsimp only at h
    obtain ⟨hst, hfail⟩ := set_addr_st_cases oracle c (i + 1) old_log
    split at h
    · simp at h
    · rename_i hok
      have hora : oracle c.tick = true := by
        rcases hx : oracle c.tick with _ | _ <;> simp_all
      obtain ⟨h1, h2, h3⟩ := ih _ _ h
      rw [hst, if_pos hora] at h1 h2 h3
      refine ⟨h1, by simpa using h2, ?_⟩
      intro j
      rw [h3 j]
      by_cases hji : j ≤ i
      · rw [if_pos hji, if_pos (by omega)]
        rw [List.getElem?_set, if_neg (by omega)]
      · by_cases hji1 : j = i + 1
        · subst hji1
          rw [if_neg (by omega), if_pos (by omega)]
          rw [List.getElem?_set, if_pos rfl]
          rcases hlm : c.st.vring_log[i + 1]? with _ | b
          · have : ¬ i + 1 < c.st.vring_log.length := by
              intro hcon
              rw [List.getElem?_eq_getElem hcon] at hlm
              simp at hlm
            rw [if_neg this]
            simp
          · have : i + 1 < c.st.vring_log.length := by
              by_contra hcon
              rw [List.getElem?_eq_none (by omega)] at hlm
              simp at hlm
            rw [if_pos this]
            simp
        · rw [if_neg (by omega), if_neg (by omega)]
          rw [List.getElem?_set, if_neg (by omega)]

theorem accelState_eq (s1 s2 : AccelState)
    (h1 : s1.features_log = s2.features_log)
    (h2 : s1.vring_log = s2.vring_log) : s1 = s2 := by
  cases s1; cases s2; simp_all

/-- If the per-queue loop of `vhost_dev_set_log` returns a failure, the
accelerator configuration has been fully rolled back: the feature log bit and
every queue flag hold the old value again. -/
theorem vqLoop_fail_restore (oracle : Nat → Bool) (enable_log old_log : Bool)
    (n : Nat) :
    ∀ (fuel i : Nat) (c c2 : Ctl) (r : Int),
      vqLoop oracle enable_log old_log n fuel i c = some (c2, r) → r < 0 →
      c.st.features_log = enable_log →
      (∀ j, i ≤ j →
        c.st.vring_log[j]? = c.st.vring_log[j]?.map (fun _ => old_log)) →
      c2.st.features_log = old_log ∧
      c2.st.vring_log.length = c.st.vring_log.length ∧
      ∀ j : Nat, c2.st.vring_log[j]? = c.st.vring_log[j]?.map (fun _ => old_log) := by
  intro fuel
  induction fuel with
  | zero =>
    intro i c c2 r h hr _ _
    unfold vqLoop at h
    simp only [Option.some.injEq, Prod.mk.injEq] at h
    omega
  | succ fuel ih =>
    intro i c c2 r h hr hfeat hold
    unfold vqLoop at h
    dsimp only at h
    split at h
    · obtain ⟨hst, hfail⟩ := set_addr_st_cases oracle c i enable_log
      split at h
      · rename_i hpfail
        have hora : oracle c.tick = false := hfail.1 hpfail
        rw [hora] at hst
        simp only [Bool.false_eq_true, if_false] at hst
        rcases hun : unwindAddrs oracle old_log i
            (vhost_virtqueue_set_addr oracle c i enable_log).1 with _ | c3
        · rw [hun] at h; simp at h
        rw [hun] at h
        dsimp only at h
        obtain ⟨hq, hqfail⟩ := set_features_st_cases oracle c3 old_log
        split at h
        · simp at h
        · rename_i hqok
          have hqora : oracle c3.tick = true := by
            rcases hx : oracle c3.tick with _ | _ <;> simp_all
          rw [hqora, if_pos rfl] at hq
          simp only [Option.some.injEq, Prod.mk.injEq] at h
          obtain ⟨h1, -⟩ := h
          subst h1
          obtain ⟨hu1, hu2, hu3⟩ := unwindAddrs_st oracle old_log i _ _ hun
          rw [hst] at hu1 hu2 hu3
          refine ⟨by rw [hq], ?_, ?_⟩
          · rw [hq]; simpa using hu2
          · intro j
            have : (vhost_dev_set_features oracle c3 old_log).1.st.vring_log =
                c3.st.vring_log := by rw [hq]
            rw [this, hu3 j]
            by_cases hj : j ≤ i
            · rw [if_pos hj]
            · rw [if_neg hj]
              exact hold j (by omega)
      · rename_i hpok
        have hora : oracle c.tick = true := by
          rcases hx : oracle c.tick with _ | _ <;> simp_all
        rw [hora, if_pos rfl] at hst
        obtain ⟨h1, h2, h3⟩ := ih (i + 1) _ _ _ h hr (by rw [hst]; exact hfeat)
          (by
            intro j hj
            rw [hst]
            dsimp only
            rw [List.getElem?_set, if_neg (by omega)]
            exact hold j (by omega))
        rw [hst] at h2 h3
        dsimp only at h2 h3
        refine ⟨h1, by simpa using h2, ?_⟩
        intro j
        rw [h3 j, List.getElem?_set]
        by_cases hij : i = j
        · subst hij
          rw [if_pos rfl]
          by_cases hlen : i < c.st.vring_log.length
          · rw [if_pos hlen, List.getElem?_eq_getElem hlen]
            simp
          · rw [if_neg hlen, List.getElem?_eq_none (by omega)]
        · rw [if_neg hij]
    · simp only [Option.some.injEq, Prod.mk.injEq] at h
      omega

/-- C9: if `vhost_dev_set_log` fails partway (the error propagated from a
failed per-queue address push, or from the initial feature push), then on
return the externally visible accelerator configuration — the feature log bit
and every queue's log flag — equals its state before the toggle began.  The
`some` result encodes that the unwind steps themselves succeeded; the code
asserts them (`assert(t >= 0)`), and a failing unwind aborts (`none`). -/
theorem set_log_partial_failure_restores (oracle : Nat → Bool) (dev : VhostDev)
    (enable_log : Bool) (c c2 : Ctl) (r : Int)
    (hrun : vhost_dev_set_log oracle dev enable_log c = some (c2, r))
    (hr : r < 0)
    (hfeat : c.st.features_log = dev.log_enabled)
    (hv : ∀ b ∈ c.st.vring_log, b = dev.log_enabled) :
    c2.st = c.st := by
  have hself : ∀ j : Nat, c.st.vring_log[j]? =
      c.st.vring_log[j]?.map (fun _ => dev.log_enabled) := by
    intro j
    rcases hl : c.st.vring_log[j]? with _ | b
    · rfl
    · have hb : b ∈ c.st.vring_log := by
        have := List.getElem?_eq_some_iff.1 hl
        obtain ⟨hlt, hget⟩ := this
        exact hget ▸ List.getElem_mem hlt
      rw [hv b hb]
      rfl
  unfold vhost_dev_set_log at hrun
  dsimp only at hrun
  obtain ⟨hp, hpfail⟩ := set_features_st_cases oracle c enable_log
  split at hrun
  · rename_i hfailed
    have hora : oracle c.tick = false := hpfail.1 hfailed
    rw [hora] at hp
    simp only [Bool.false_eq_true, if_false] at hp
    simp only [Option.some.injEq, Prod.mk.injEq] at hrun
    obtain ⟨h1, -⟩ := hrun
    subst h1
    rw [hp]
  · rename_i hok
    have hora : oracle c.tick = true := by
      rcases hx : oracle c.tick with _ | _ <;> simp_all
    rw [hora, if_pos rfl] at hp
    obtain ⟨h1, h2, h3⟩ := vqLoop_fail_restore oracle enable_log dev.log_enabled
      dev.vqs.length dev.vqs.length 0 _ _ _ hrun hr (by rw [hp])
      (by intro j _; rw [hp]; exact hself j)
    refine accelState_eq _ _ ?_ ?_
    · rw [h1, hfeat]
    · refine List.ext_getElem? ?_
      intro j
      rw [h3 j, hp]
      dsimp only
      exact (hself j).symm

theorem set_log_partial_failure_restores_witness :
    (vhost_dev_set_log (fun k => decide (k ≠ 1))
        ⟨[], [⟨4096, 4096⟩], 0, false, true⟩ true ⟨⟨false, [false]⟩, 0, []⟩ =
      some (⟨⟨false, [false]⟩, 4,
        [Cmd.setFeatures true, Cmd.setVringAddr 0 true,
         Cmd.setVringAddr 0 false, Cmd.setFeatures false]⟩, -1)) ∧
    ((-1 : Int) < 0) ∧
    (Ctl.st ⟨⟨false, [false]⟩, 4,
      [Cmd.setFeatures true, Cmd.setVringAddr 0 true,
       Cmd.setVringAddr 0 false, Cmd.setFeatures false]⟩ =
     Ctl.st ⟨⟨false, [false]⟩, 0, []⟩) := by
  refine ⟨by decide, by decide, ?_⟩
  exact set_log_partial_failure_restores (fun k => decide (k ≠ 1))
    ⟨[], [⟨4096, 4096⟩], 0, false, true⟩ true ⟨⟨false, [false]⟩, 0, []⟩
    ⟨⟨false, [false]⟩, 4,
      [Cmd.setFeatures true, Cmd.setVringAddr 0 true,
       Cmd.setVringAddr 0 false, Cmd.setFeatures false]⟩ (-1)
    (by decide) (by decide) rfl (by decide)

/-! ### Command order of the migration-log toggle -/

theorem set_addr_ok (oracle : Nat → Bool) (c : Ctl) (idx : Nat) (b : Bool)
    (h : oracle c.tick = true) :
    vhost_virtqueue_set_addr oracle c idx b =
      ({ st := { c.st with vring_log := c.st.vring_log.set idx b },
         tick := c.tick + 1,
         trace := c.trace ++ [Cmd.setVringAddr idx b] }, 0) := by
  unfold vhost_virtqueue_set_addr
  rw [if_pos h]

theorem set_features_ok (oracle : Nat → Bool) (c : Ctl) (b : Bool)
    (h : oracle c.tick = true) :
    vhost_dev_set_features oracle c b =
      ({ st := { c.st with features_log := b },
         tick := c.tick + 1,
         trace := c.trace ++ [Cmd.setFeatures b] }, 0) := by
  unfold vhost_dev_set_features
  rw [if_pos h]

theorem log_resize_ok (oracle : Nat → Bool) (dev : VhostDev) (size : Nat)
    (c : Ctl) (h : oracle c.tick = true) :
    vhost_dev_log_resize oracle dev size c =
      some ({ dev with log_size := size },
        { c with tick := c.tick + 1, trace := c.trace ++ [Cmd.setLogBase size] }) := by
  unfold vhost_dev_log_resize ioctlSetLogBase
  rw [if_pos h]
  dsimp only
  rw [if_neg (by norm_num)]

/-- With an always-succeeding control channel, the per-queue loop pushes the
addresses of queues `i, i+1, …, n-1` in index order and returns success. -/
theorem vqLoop_ok_trace (oracle : Nat → Bool) (enable_log old_log : Bool)
    (n : Nat) (hall : ∀ k, oracle k = true) :
    ∀ (fuel i : Nat) (c : Ctl), n ≤ i + fuel →
      ∃ c', vqLoop oracle enable_log old_log n fuel i c = some (c', 0) ∧
        c'.trace = c.trace ++
          (List.range' i (n - i)).map (fun j => Cmd.setVringAddr j enable_log) := by
  intro fuel
  induction fuel with
  | zero =>
    intro i c hni
    refine ⟨c, rfl, ?_⟩
    rw [show n - i = 0 by omega]
    simp
  | succ fuel ih =>
    intro i c hni
    unfold vqLoop
    dsimp only
    by_cases hin : i < n
    · rw [if_pos hin]
      rw [set_addr_ok oracle c i enable_log (hall _)]
      dsimp only
      rw [if_neg (by norm_num)]
      obtain ⟨c', hc', htr⟩ := ih (i + 1) _ (by omega)
      refine ⟨c', hc', ?_⟩
      rw [htr]
      dsimp only
      rw [show n - i = (n - (i + 1)) + 1 by omega, List.range'_succ]
      simp
    · rw [if_neg hin]
      refine ⟨c, rfl, ?_⟩
      rw [show n - i = 0 by omega]
      simp

/-- With an always-succeeding control channel, `vhost_dev_set_log` pushes the
feature bits first and then every queue's addresses in index order. -/
theorem set_log_ok_trace (oracle : Nat → Bool) (dev : VhostDev)
    (enable_log : Bool) (c : Ctl) (hall : ∀ k, oracle k = true) :
    ∃ c', vhost_dev_set_log oracle dev enable_log c = some (c', 0) ∧
      c'.trace = c.trace ++ [Cmd.setFeatures enable_log] ++
        (List.range dev.vqs.length).map (fun i => Cmd.setVringAddr i enable_log) := by
  unfold vhost_dev_set_log
  rw [set_features_ok oracle c enable_log (hall _)]
  dsimp only
  rw [if_neg (by norm_num)]
  obtain ⟨c', hc', htr⟩ := vqLoop_ok_trace oracle enable_log dev.log_enabled
    dev.vqs.length hall dev.vqs.length 0 _ (by omega)
  refine ⟨c', hc', ?_⟩
  rw [htr]
  dsimp only
  rw [List.range_eq_range']
  simp

/-- C5 (amended): on a running device with an always-succeeding control
channel, enabling migration logging issues `SetLogBase` (for the buffer sized
to `vhost_get_log_size`), then `SetFeatures` with `F_LOG_ALL`, then per-queue
`SetVringAddr` with the log flag, in index order.  Disabling issues
`SetFeatures` without `F_LOG_ALL` first and then the per-queue `SetVringAddr`
with the flag clear — the same feature-then-queues order as enabling, not the
reverse — and issues no `SetLogBase`; the buffer is freed afterwards. -/
theorem migration_log_command_order (oracle : Nat → Bool) (CHUNK : Nat)
    (dev : VhostDev) (c : Ctl) (hall : ∀ k, oracle k = true)
    (hstarted : dev.started = true) :
    (dev.log_enabled = false →
      ∃ dev' c', vhost_migration_log oracle CHUNK dev true c = some (dev', c', 0) ∧
        c'.trace = c.trace ++
          [Cmd.setLogBase (vhost_get_log_size CHUNK dev), Cmd.setFeatures true] ++
          (List.range dev.vqs.length).map (fun i => Cmd.setVringAddr i true)) ∧
    (dev.log_enabled = true →
      ∃ dev' c', vhost_migration_log oracle CHUNK dev false c = some (dev', c', 0) ∧
        c'.trace = c.trace ++ [Cmd.setFeatures false] ++
          (List.range dev.vqs.length).map (fun i => Cmd.setVringAddr i false)) := by
  constructor
  · intro hoff
    unfold vhost_migration_log
    rw [if_neg (by simp [hoff])]
    rw [if_neg (by simp [hstarted])]
    rw [if_neg (by simp)]
    rw [log_resize_ok oracle dev (vhost_get_log_size CHUNK dev) c (hall _)]
    dsimp only
    obtain ⟨c', hc', htr⟩ := set_log_ok_trace oracle
      { dev with log_size := vhost_get_log_size CHUNK dev } true
      { c with
          tick := c.tick + 1
          trace := c.trace ++ [Cmd.setLogBase (vhost_get_log_size CHUNK dev)] }
      hall
    rw [hc']
    dsimp only
    rw [if_neg (by norm_num)]
    refine ⟨_, _, rfl, ?_⟩
    rw [htr]
    simp
  · intro hon
    unfold vhost_migration_log
    rw [if_neg (by simp [hon])]
    rw [if_neg (by simp [hstarted])]
    rw [if_pos rfl]
    obtain ⟨c', hc', htr⟩ := set_log_ok_trace oracle dev false c hall
    rw [hc']
    dsimp only
    rw [if_neg (by norm_num)]
    refine ⟨_, _, rfl, ?_⟩
    rw [htr]

theorem migration_log_command_order_witness :
    ((∀ k : Nat, (fun _ : Nat => true) k = true) ∧
     (⟨[⟨0, 4096, 0⟩], [⟨4096, 4096⟩], 2, true, true⟩ : VhostDev).started = true) ∧
    ((⟨[⟨0, 4096, 0⟩], [⟨4096, 4096⟩], 2, true, true⟩ : VhostDev).log_enabled = true →
      ∃ dev' c', vhost_migration_log (fun _ => true) 262144
          ⟨[⟨0, 4096, 0⟩], [⟨4096, 4096⟩], 2, true, true⟩ false ⟨⟨true, [true]⟩, 0, []⟩ =
          some (dev', c', 0) ∧
        c'.trace = Ctl.trace ⟨⟨true, [true]⟩, 0, []⟩ ++ [Cmd.setFeatures false] ++
          (List.range (⟨[⟨0, 4096, 0⟩], [⟨4096, 4096⟩], 2, true, true⟩ : VhostDev).vqs.length).map
            (fun i => Cmd.setVringAddr i false)) :=
  ⟨⟨fun _ => rfl, rfl⟩,
   (migration_log_command_order (fun _ => true) 262144
      ⟨[⟨0, 4096, 0⟩], [⟨4096, 4096⟩], 2, true, true⟩ ⟨⟨true, [true]⟩, 0, []⟩
      (fun _ => rfl) rfl).2⟩

/-- C5 counterexample: disabling migration logging on a running device is not
the reverse of the enable order.  On a concrete running, logging device with
one queue, the disable trace is `SetFeatures` (without `F_LOG_ALL`) *then*
`SetVringAddr` — features first, the same relative order as enabling, and no
`SetLogBase` at all — not the claimed reversed order. -/
theorem migration_log_disable_order_not_reversed :
    (match vhost_migration_log (fun _ => true) 262144
        ⟨[], [⟨4096, 4096⟩], 2, true, true⟩ false ⟨⟨true, [true]⟩, 0, []⟩ with
     | some x => x.2.1.trace
     | none => []) = [Cmd.setFeatures false, Cmd.setVringAddr 0 false] ∧
    [Cmd.setFeatures false, Cmd.setVringAddr 0 false] ≠
      [Cmd.setVringAddr 0 false, Cmd.setFeatures false] := by
  refine ⟨by decide, by decide⟩

/-! ### `vhost_dev_unassign_memory`: invariant preservation -/

/-- Full structural characterization of the pieces one region contributes
after removal of `[a, a+sz)`: each piece is a sub-interval of its source with
consistent hva translation, keeps the source's low or high boundary (the
other boundary moving to the removal boundary), and avoids the removed
range. -/
theorem unassignPieces_spec (a sz : Nat) (hsz : 0 < sz)
    (reg : VhostMemoryRegion) (hreg : 0 < reg.memory_size)
    (p : VhostMemoryRegion)
    (hp : p ∈ (unassignPieces a sz reg).1 ∨ p ∈ (unassignPieces a sz reg).2) :
    0 < p.memory_size ∧
    reg.guest_phys_addr ≤ p.guest_phys_addr ∧
    p.guest_phys_addr + p.memory_size ≤ reg.guest_phys_addr + reg.memory_size ∧
    p.userspace_addr =
      reg.userspace_addr + (p.guest_phys_addr - reg.guest_phys_addr) ∧
    (p.guest_phys_addr = reg.guest_phys_addr ∨ p.guest_phys_addr = a + sz) ∧
    (p.guest_phys_addr + p.memory_size =
        reg.guest_phys_addr + reg.memory_size ∨
     p.guest_phys_addr + p.memory_size = a) ∧
    (p.guest_phys_addr + p.memory_size ≤ a ∨ a + sz ≤ p.guest_phys_addr) := by
  simp only [unassignPieces] at hp
  split at hp
  · rename_i hov
    obtain h := (ranges_overlap_eq_false_iff _ _ _ _).1 hov
    rcases hp with hp | hp
    · simp at hp
      subst hp
      omega
    · simp at hp
  · rename_i hov
    rw [Bool.not_eq_false] at hov
    obtain ⟨h1, h2⟩ := (ranges_overlap_eq_true_iff _ _ _ _).1 hov
    split at hp
    · simp at hp
    · rename_i hcase1
      simp only [range_get_last, not_and, not_le] at hcase1
      split at hp
      · rename_i hcase2
        simp only [range_get_last] at hcase2
        rcases hp with hp | hp
        · simp at hp
          subst hp
          dsimp only
          omega
        · simp at hp
      · rename_i hcase2
        simp only [range_get_last, not_le] at hcase2
        split at hp
        · rename_i hcase3
          rcases hp with hp | hp
          · simp at hp
            subst hp
            dsimp only
            simp only [range_get_last]
            omega
          · simp at hp
        · rename_i hcase3
          simp only [not_le] at hcase3
          rcases hp with hp | hp
          · simp at hp
            subst hp
            dsimp only
            omega
          · simp at hp
            subst hp
            dsimp only
            simp only [range_get_last]
            omega

/-- The pairwise relation combining the two table invariants: disjoint
guest-physical intervals and no double adjacency. -/
def goodPair (x y : VhostMemoryRegion) : Prop :=
  regsDisjoint x y ∧ ¬ bothAdjacent x y

instance (r1 r2 : VhostMemoryRegion) : Decidable (goodPair r1 r2) := by
  unfold goodPair
  infer_instance

theorem goodPair_symm {x y : VhostMemoryRegion} (h : goodPair x y) :
    goodPair y x := by
  unfold goodPair regsDisjoint bothAdjacent at *
  tauto

theorem pairwise_of_subsingleton {α : Type} (l : List α) (R : α → α → Prop)
    (h : l.length ≤ 1) : l.Pairwise R := by
  match l with
  | [] => constructor
  | [x] => simp
  | x :: y :: rest => simp at h

theorem unassignPieces_len (a sz : Nat) (reg : VhostMemoryRegion) :
    (unassignPieces a sz reg).1.length ≤ 1 ∧
    (unassignPieces a sz reg).2.length ≤ 1 := by
  unfold unassignPieces
  dsimp only
  split_ifs <;> simp

/-- The two pieces of a split are ordered around the removed range and are
neither overlapping nor adjacent. -/
theorem unassignPieces_cross_same (a sz : Nat) (hsz : 0 < sz)
    (reg : VhostMemoryRegion) :
    ∀ p ∈ (unassignPieces a sz reg).1, ∀ q ∈ (unassignPieces a sz reg).2,
      goodPair p q := by
  intro p hp q hq
  unfold unassignPieces at hp hq
  dsimp only at hp hq
  split at hq
  · simp at hq
  · rename_i g1
    split at hq
    · simp at hq
    · rename_i g2
      split at hq
      · simp at hq
      · rename_i g3
        split at hq
        · simp at hq
        · rename_i g4
          rw [if_neg g1, if_neg g2, if_neg g3, if_neg g4] at hp
          rw [Bool.not_eq_false] at g1
          obtain ⟨h1, h2⟩ := (ranges_overlap_eq_true_iff _ _ _ _).1 g1
          simp only [range_get_last, not_and, not_le] at g2 g3 g4
          simp at hp hq
          subst hp
          subst hq
          unfold goodPair regsDisjoint bothAdjacent
          dsimp only
          simp only [range_get_last]
          omega

/-- Pieces of two disjoint, non-adjacent source regions remain disjoint and
non-adjacent: the only boundary pairs a new adjacency could use are either
the sources' own boundaries (contradicting source non-adjacency) or the
removal boundaries `a` / `a + sz` (contradicting removal avoidance). -/
theorem piece_cross (a sz : Nat) (hsz : 0 < sz) (r1 r2 : VhostMemoryRegion)
    (h1 : 0 < r1.memory_size) (h2 : 0 < r2.memory_size)
    (hgood : goodPair r1 r2) (p q : VhostMemoryRegion)
    (hp : p ∈ (unassignPieces a sz r1).1 ∨ p ∈ (unassignPieces a sz r1).2)
    (hq : q ∈ (unassignPieces a sz r2).1 ∨ q ∈ (unassignPieces a sz r2).2) :
    goodPair p q := by
  obtain ⟨hp1, hp2, hp3, hp4, hp5, hp6, hp7⟩ :=
    unassignPieces_spec a sz hsz r1 h1 p hp
  obtain ⟨hq1, hq2, hq3, hq4, hq5, hq6, hq7⟩ :=
    unassignPieces_spec a sz hsz r2 h2 q hq
  obtain ⟨hd, hna⟩ := hgood
  unfold regsDisjoint at hd
  unfold bothAdjacent at hna
  unfold goodPair regsDisjoint bothAdjacent
  exact ⟨by omega, by omega⟩

/-- Cross-membership fact for concatenating two mapped-and-flattened piece
lists over the same source list: any piece of `f` paired with any piece of
`g` satisfies `D`, provided same-source pairs do and distinct-source pairs
are covered through the pairwise source relation. -/
theorem flatten_cross {α β : Type} (t : List α) (f g : α → List β)
    (S : α → α → Prop) (hS : t.Pairwise S) (D : β → β → Prop)
    (hsame : ∀ r ∈ t, ∀ p ∈ f r, ∀ q ∈ g r, D p q)
    (hcross : ∀ r1 ∈ t, ∀ r2 ∈ t, S r1 r2 →
      ∀ p ∈ f r1, ∀ q ∈ g r2, D p q)
    (hcross2 : ∀ r1 ∈ t, ∀ r2 ∈ t, S r1 r2 →
      ∀ p ∈ f r2, ∀ q ∈ g r1, D p q) :
    ∀ p ∈ (t.map f).flatten, ∀ q ∈ (t.map g).flatten, D p q := by
  induction t with
  | nil => simp
  | cons r rest ih =>
    obtain ⟨hr, hrest⟩ := List.pairwise_cons.1 hS
    intro p hp q hq
    simp only [List.map_cons, List.flatten_cons, List.mem_append] at hp hq
    rcases hp with hp | hp
    · rcases hq with hq | hq
      · exact hsame r (by simp) p hp q hq
      · obtain ⟨l, ⟨r2, hr2, rfl⟩, hq⟩ := by
          simpa only [List.mem_flatten, List.mem_map] using hq
        exact hcross r (by simp) r2 (by simp [hr2]) (hr r2 hr2) p hp q hq
    · obtain ⟨l, ⟨r1, hr1, rfl⟩, hp⟩ := by
        simpa only [List.mem_flatten, List.mem_map] using hp
      rcases hq with hq | hq
      · exact hcross2 r (by simp) r1 (by simp [hr1]) (hr r1 hr1) p hp q hq
      · obtain ⟨l2, ⟨r2, hr2, rfl⟩, hq⟩ := by
          simpa only [List.mem_flatten, List.mem_map] using hq
        refine ih hrest
          (fun s hs => hsame s (by simp [hs]))
          (fun s1 hs1 s2 hs2 hss => hcross s1 (by simp [hs1]) s2 (by simp [hs2]) hss)
          (fun s1 hs1 s2 hs2 hss => hcross2 s1 (by simp [hs1]) s2 (by simp [hs2]) hss)
          p (by simp only [List.mem_flatten, List.mem_map]; exact ⟨_, ⟨r1, hr1, rfl⟩, hp⟩)
          q (by simp only [List.mem_flatten, List.mem_map]; exact ⟨_, ⟨r2, hr2, rfl⟩, hq⟩)

/-- `vhost_dev_unassign_memory` preserves the table invariants: every piece
keeps a nonzero size, and the table stays pairwise disjoint and
merge-maximal. -/
theorem unassign_good (a sz : Nat) (hsz : 0 < sz) (t : List VhostMemoryRegion)
    (hts : ∀ r ∈ t, 0 < r.memory_size) (htp : t.Pairwise goodPair) :
    (∀ p ∈ vhost_dev_unassign_memory a sz t, 0 < p.memory_size) ∧
    (vhost_dev_unassign_memory a sz t).Pairwise goodPair := by
  constructor
  · intro p hp
    obtain ⟨r, hr, hpr⟩ := (mem_unassign_iff a sz t p).1 hp
    exact (unassignPieces_spec a sz hsz r (hts r hr) p hpr).1
  · unfold vhost_dev_unassign_memory
    rw [List.pairwise_append]
    refine ⟨?_, ?_, ?_⟩
    · rw [List.pairwise_flatten]
      constructor
      · intro l hl
        obtain ⟨r, hr, rfl⟩ := List.mem_map.1 hl
        exact pairwise_of_subsingleton _ _ (unassignPieces_len a sz r).1
      · rw [List.pairwise_map]
        refine htp.imp_of_mem ?_
        intro r1 r2 hr1 hr2 hgood p hp q hq
        exact piece_cross a sz hsz r1 r2 (hts r1 hr1) (hts r2 hr2) hgood p q
          (Or.inl hp) (Or.inl hq)
    · rw [List.pairwise_flatten]
      constructor
      · intro l hl
        obtain ⟨r, hr, rfl⟩ := List.mem_map.1 hl
        exact pairwise_of_subsingleton _ _ (unassignPieces_len a sz r).2
      · rw [List.pairwise_map]
        refine htp.imp_of_mem ?_
        intro r1 r2 hr1 hr2 hgood p hp q hq
        exact piece_cross a sz hsz r1 r2 (hts r1 hr1) (hts r2 hr2) hgood p q
          (Or.inr hp) (Or.inr hq)
    · exact flatten_cross t _ _ goodPair htp goodPair
        (fun r hr p hp q hq => unassignPieces_cross_same a sz hsz r p hp q hq)
        (fun r1 hr1 r2 hr2 hg p hp q hq =>
          piece_cross a sz hsz r1 r2 (hts r1 hr1) (hts r2 hr2) hg p q
            (Or.inl hp) (Or.inr hq))
        (fun r1 hr1 r2 hr2 hg p hp q hq =>
          piece_cross a sz hsz r2 r1 (hts r2 hr2) (hts r1 hr1) (goodPair_symm hg)
            p q (Or.inl hp) (Or.inr hq))

/-- After `unassign`, no region intersects the removed range (interval
form). -/
theorem unassign_avoid (a sz : Nat) (hsz : 0 < sz) (t : List VhostMemoryRegion)
    (hts : ∀ r ∈ t, 0 < r.memory_size) :
    ∀ p ∈ vhost_dev_unassign_memory a sz t,
      p.guest_phys_addr + p.memory_size ≤ a ∨ a + sz ≤ p.guest_phys_addr := by
  intro p hp
  obtain ⟨r, hr, hpr⟩ := (mem_unassign_iff a sz t p).1 hp
  exact (unassignPieces_spec a sz hsz r (hts r hr) p hpr).2.2.2.2.2.2

/-! ### `vhost_dev_assign_memory`: invariant preservation and structure -/

/-- Low gpa boundary of the running merged range: the consumed below-neighbour
when one exists, otherwise the new range itself. -/
def hullLo (a : Nat) (cB : Option VhostMemoryRegion) : Nat :=
  match cB with
  | some b => b.guest_phys_addr
  | none => a

/-- Low hva boundary of the running merged range. -/
def hullLoU (u : Nat) (cB : Option VhostMemoryRegion) : Nat :=
  match cB with
  | some b => b.userspace_addr
  | none => u

/-- One-past-the-end gpa boundary of the running merged range. -/
def hullHi (a sz : Nat) (cA : Option VhostMemoryRegion) : Nat :=
  match cA with
  | some d => d.guest_phys_addr + d.memory_size
  | none => a + sz

/-- The running merged region of `vhost_dev_assign_memory` as determined by
the new range `(a, sz, u)` and the optionally consumed below/above
neighbours. -/
def hullOf (a sz u : Nat) (cB cA : Option VhostMemoryRegion) :
    VhostMemoryRegion :=
  ⟨hullLo a cB, hullHi a sz cA - hullLo a cB, hullLoU u cB⟩

/-- The below-neighbour, when consumed, ends exactly at the new range in both
gpa and hva. -/
def classBelow (a u : Nat) (cB : Option VhostMemoryRegion) : Prop :=
  ∀ b, cB = some b → b.guest_phys_addr + b.memory_size = a ∧
    b.userspace_addr + b.memory_size = u ∧ 0 < b.memory_size

/-- The above-neighbour, when consumed, starts exactly at the end of the new
range in both gpa and hva. -/
def classAbove (a sz u : Nat) (cA : Option VhostMemoryRegion) : Prop :=
  ∀ d, cA = some d → d.guest_phys_addr = a + sz ∧
    d.userspace_addr = u + sz ∧ 0 < d.memory_size

theorem hull_bounds (a sz u : Nat) (cB cA : Option VhostMemoryRegion)
    (hB : classBelow a u cB) (hA : classAbove a sz u cA) :
    hullLo a cB ≤ a ∧ a + sz ≤ hullHi a sz cA ∧
    hullLoU u cB ≤ u ∧
    hullLoU u cB + (a - hullLo a cB) = u ∧
    hullLoU u cB + (hullHi a sz cA - hullLo a cB) = u + (hullHi a sz cA - a) := by
  rcases cB with _ | b <;> rcases cA with _ | d
  · refine ⟨?_, ?_, ?_, ?_, ?_⟩ <;> simp only [hullLo, hullLoU, hullHi] <;> omega
  · obtain ⟨hd1, hd2, hd3⟩ := hA d rfl
    refine ⟨?_, ?_, ?_, ?_, ?_⟩ <;> simp only [hullLo, hullLoU, hullHi] <;> omega
  · obtain ⟨hb1, hb2, hb3⟩ := hB b rfl
    refine ⟨?_, ?_, ?_, ?_, ?_⟩ <;> simp only [hullLo, hullLoU, hullHi] <;> omega
  · obtain ⟨hb1, hb2, hb3⟩ := hB b rfl
    obtain ⟨hd1, hd2, hd3⟩ := hA d rfl
    refine ⟨?_, ?_, ?_, ?_, ?_⟩ <;> simp only [hullLo, hullLoU, hullHi] <;> omega

/-- Writing at the index right past `l1` in `l1 ++ x :: l2` replaces `x`. -/
theorem set_at_length {α : Type} (l1 : List α) (x y : α) (l2 : List α) :
    (l1 ++ x :: l2).set l1.length y = l1 ++ y :: l2 := by
  induction l1 with
  | nil => rfl
  | cons z zs ih => simp [List.set_cons_succ, ih]

/-- A region disjoint from the new range and from both consumed neighbours is
disjoint from the hull. -/
theorem disjoint_hull (a sz u : Nat) (cB cA : Option VhostMemoryRegion)
    (hB : classBelow a u cB) (hA : classAbove a sz u cA)
    (q : VhostMemoryRegion) (hq : 0 < q.memory_size)
    (hr : regsDisjoint q ⟨a, sz, u⟩)
    (hqB : ∀ b, cB = some b → regsDisjoint q b)
    (hqA : ∀ d, cA = some d → regsDisjoint q d) :
    regsDisjoint q (hullOf a sz u cB cA) := by
  unfold regsDisjoint at *
  unfold hullOf
  dsimp only at hr ⊢
  rcases cB with _ | b <;> rcases cA with _ | d
  · simp only [hullLo, hullHi]
    omega
  · obtain ⟨hd1, hd2, hd3⟩ := hA d rfl
    have := hqA d rfl
    simp only [hullLo, hullHi]
    omega
  · obtain ⟨hb1, hb2, hb3⟩ := hB b rfl
    have := hqB b rfl
    simp only [hullLo, hullHi]
    omega
  · obtain ⟨hb1, hb2, hb3⟩ := hB b rfl
    obtain ⟨hd1, hd2, hd3⟩ := hA d rfl
    have h1 := hqB b rfl
    have h2 := hqA d rfl
    simp only [hullLo, hullHi]
    omega

/-- The `AssignInv` fold invariant: the accumulator's output is the kept
regions with the hull (if any) in the merged slot, the running range equals
the hull, and the kept regions are pairwise good and good against the
hull. -/
structure AssignInv (a sz u : Nat) (acc : AssignAcc)
    (kept : List VhostMemoryRegion) (cB cA : Option VhostMemoryRegion) :
    Prop where
  hB : classBelow a u cB
  hA : classAbove a sz u cA
  hkeptSize : ∀ p ∈ kept, 0 < p.memory_size
  hkeptHull : ∀ p ∈ kept, goodPair p (hullOf a sz u cB cA)
  hkeptPw : kept.Pairwise goodPair
  hstart : acc.start_addr = hullLo a cB
  huaddr : acc.uaddr = hullLoU u cB
  hsize : acc.start_addr + acc.size = hullHi a sz cA
  hout : match acc.mergedIdx with
    | none => cB = none ∧ cA = none ∧ acc.out = kept
    | some i => (cB ≠ none ∨ cA ≠ none) ∧ ∃ pre post, kept = pre ++ post ∧
        i = pre.length ∧ acc.out = pre ++ hullOf a sz u cB cA :: post

/-- The merge test of `assignStep` is exactly non-adjacency (in both gpa and
hva, on either side) with the current hull. -/
theorem assign_test_iff (a sz u : Nat) (hsz : 0 < sz) (acc : AssignAcc)
    (cB cA : Option VhostMemoryRegion)
    (hB : classBelow a u cB) (hA : classAbove a sz u cA)
    (hstart : acc.start_addr = hullLo a cB)
    (huaddr : acc.uaddr = hullLoU u cB)
    (hsize : acc.start_addr + acc.size = hullHi a sz cA)
    (head : VhostMemoryRegion) (hhd : 0 < head.memory_size) :
    ((range_get_last head.guest_phys_addr head.memory_size + 1 ≠ acc.start_addr ∨
      range_get_last head.userspace_addr head.memory_size + 1 ≠ acc.uaddr) ∧
     (range_get_last acc.start_addr acc.size + 1 ≠ head.guest_phys_addr ∨
      range_get_last acc.uaddr acc.size + 1 ≠ head.userspace_addr)) ↔
    ¬ bothAdjacent head (hullOf a sz u cB cA) := by
  obtain ⟨hb1, hb2, hb3, hb4, hb5⟩ := hull_bounds a sz u cB cA hB hA
  unfold bothAdjacent hullOf range_get_last
  dsimp only
  omega

/-- Growing the hull downward over the below-neighbour preserves goodness of
a kept region against the hull. -/
theorem goodPair_grow_below (a sz u : Nat) (hsz : 0 < sz)
    (cA : Option VhostMemoryRegion) (hA : classAbove a sz u cA)
    (head : VhostMemoryRegion)
    (hh1 : head.guest_phys_addr + head.memory_size = a)
    (hh2 : head.userspace_addr + head.memory_size = u)
    (hh3 : 0 < head.memory_size)
    (p : VhostMemoryRegion) (hp : 0 < p.memory_size)
    (hold : goodPair p (hullOf a sz u none cA))
    (hph : goodPair p head) :
    goodPair p (hullOf a sz u (some head) cA) := by
  unfold goodPair regsDisjoint bothAdjacent at hph
  unfold goodPair regsDisjoint bothAdjacent hullOf at hold ⊢
  dsimp only at hold hph ⊢
  rcases cA with _ | d
  · simp only [hullLo, hullLoU, hullHi] at hold ⊢
    omega
  · obtain ⟨hd1, hd2, hd3⟩ := hA d rfl
    simp only [hullLo, hullLoU, hullHi] at hold ⊢
    omega

/-- Growing the hull upward over the above-neighbour preserves goodness of a
kept region against the hull. -/
theorem goodPair_grow_above (a sz u : Nat) (hsz : 0 < sz)
    (cB : Option VhostMemoryRegion) (hB : classBelow a u cB)
    (head : VhostMemoryRegion)
    (hh1 : head.guest_phys_addr = a + sz)
    (hh2 : head.userspace_addr = u + sz)
    (hh3 : 0 < head.memory_size)
    (p : VhostMemoryRegion) (hp : 0 < p.memory_size)
    (hold : goodPair p (hullOf a sz u cB none))
    (hph : goodPair p head) :
    goodPair p (hullOf a sz u cB (some head)) := by
  unfold goodPair regsDisjoint bothAdjacent at hph
  unfold goodPair regsDisjoint bothAdjacent hullOf at hold ⊢
  dsimp only at hold hph ⊢
  rcases cB with _ | b
  · simp only [hullLo, hullLoU, hullHi] at hold ⊢
    omega
  · obtain ⟨hb1, hb2, hb3⟩ := hB b rfl
    simp only [hullLo, hullLoU, hullHi] at hold ⊢
    omega

theorem perm_head_shift {α : Type} (K X C : List α) (x : α) :
    (K ++ (x :: (X ++ C))).Perm (K ++ (X ++ (x :: C))) :=
  List.Perm.append_left K List.perm_middle.symm

/-- Projections of the hull in terms of its boundaries. -/
theorem hull_proj (a sz u : Nat) (cB cA : Option VhostMemoryRegion)
    (hB : classBelow a u cB) (hA : classAbove a sz u cA) :
    (hullOf a sz u cB cA).guest_phys_addr = hullLo a cB ∧
    (hullOf a sz u cB cA).userspace_addr = hullLoU u cB ∧
    (hullOf a sz u cB cA).guest_phys_addr + (hullOf a sz u cB cA).memory_size =
      hullHi a sz cA ∧
    (hullOf a sz u cB cA).userspace_addr + (hullOf a sz u cB cA).memory_size =
      u + (hullHi a sz cA - a) := by
  obtain ⟨hb1, hb2, hb3, hb4, hb5⟩ := hull_bounds a sz u cB cA hB hA
  unfold hullOf
  exact ⟨rfl, rfl, by dsimp only; omega, by dsimp only; omega⟩

/-- The fold of `assignStep` maintains `AssignInv` and conserves the regions:
kept regions plus consumed neighbours are exactly the initial ones plus the
processed input. -/
theorem assignGo_inv (a sz u : Nat) (hsz : 0 < sz) :
    ∀ (rest : List VhostMemoryRegion) (acc : AssignAcc)
      (kept : List VhostMemoryRegion) (cB cA : Option VhostMemoryRegion),
      AssignInv a sz u acc kept cB cA →
      (∀ q ∈ rest, 0 < q.memory_size) →
      rest.Pairwise goodPair →
      (∀ q ∈ rest, regsDisjoint q ⟨a, sz, u⟩) →
      (∀ p ∈ kept, ∀ q ∈ rest, goodPair p q) →
      (∀ b, cB = some b → ∀ q ∈ rest, goodPair q b) →
      (∀ d, cA = some d → ∀ q ∈ rest, goodPair q d) →
      ∃ kept2 cB2 cA2,
        AssignInv a sz u (rest.foldl assignStep acc) kept2 cB2 cA2 ∧
        (kept2 ++ (cB2.toList ++ cA2.toList)).Perm
          ((kept ++ (cB.toList ++ cA.toList)) ++ rest) := by
  intro rest
  induction rest with
  | nil =>
    intro acc kept cB cA hinv _ _ _ _ _ _
    exact ⟨kept, cB, cA, hinv, by simp⟩
  | cons head tail ih =>
    intro acc kept cB cA hinv hsizes hpw hdisr hcross hconsB hconsA
    have hhd : 0 < head.memory_size := hsizes head (by simp)
    have htailsz : ∀ q ∈ tail, 0 < q.memory_size :=
      fun q hq => hsizes q (by simp [hq])
    obtain ⟨hheadtail, htailpw⟩ := List.pairwise_cons.1 hpw
    have hheadr : regsDisjoint head ⟨a, sz, u⟩ := hdisr head (by simp)
    have htaildisr : ∀ q ∈ tail, regsDisjoint q ⟨a, sz, u⟩ :=
      fun q hq => hdisr q (by simp [hq])
    rw [List.foldl_cons]
    by_cases hC : (range_get_last head.guest_phys_addr head.memory_size + 1 ≠
          acc.start_addr ∨
        range_get_last head.userspace_addr head.memory_size + 1 ≠ acc.uaddr) ∧
      (range_get_last acc.start_addr acc.size + 1 ≠ head.guest_phys_addr ∨
        range_get_last acc.uaddr acc.size + 1 ≠ head.userspace_addr)
    · -- head is kept
      have hnadj : ¬ bothAdjacent head (hullOf a sz u cB cA) :=
        (assign_test_iff a sz u hsz acc cB cA hinv.hB hinv.hA hinv.hstart
          hinv.huaddr hinv.hsize head hhd).1 hC
      have hstep : assignStep acc head = { acc with out := acc.out ++ [head] } := by
        unfold assignStep
        dsimp only
        rw [if_pos hC]
      rw [hstep]
      have hheadhull : goodPair head (hullOf a sz u cB cA) := by
        refine ⟨?_, hnadj⟩
        exact disjoint_hull a sz u cB cA hinv.hB hinv.hA head hhd hheadr
          (fun b hb => (hconsB b hb head (by simp)).1)
          (fun d hd => (hconsA d hd head (by simp)).1)
      have hinv' : AssignInv a sz u { acc with out := acc.out ++ [head] }
          (kept ++ [head]) cB cA := by
        refine ⟨hinv.hB, hinv.hA, ?_, ?_, ?_, hinv.hstart, hinv.huaddr,
          hinv.hsize, ?_⟩
        · intro p hp
          rcases List.mem_append.1 hp with hp | hp
          · exact hinv.hkeptSize p hp
          · simp at hp
            rw [hp]
            exact hhd
        · intro p hp
          rcases List.mem_append.1 hp with hp | hp
          · exact hinv.hkeptHull p hp
          · simp at hp
            rw [hp]
            exact hheadhull
        · rw [List.pairwise_append]
          refine ⟨hinv.hkeptPw, by simp, ?_⟩
          intro p hp q hq
          simp at hq
          rw [hq]
          exact hcross p hp head (by simp)
        · have hout := hinv.hout
          rcases hmi : acc.mergedIdx with _ | i <;> rw [hmi] at hout <;>
            dsimp only
          · obtain ⟨hB0, hA0, houteq⟩ := hout
            exact ⟨hB0, hA0, by rw [houteq]⟩
          · obtain ⟨hne, pre, post, hkeq, hieq, houteq⟩ := hout
            refine ⟨hne, pre, post ++ [head], by rw [hkeq]; simp, hieq, ?_⟩
            rw [houteq]
            simp
      obtain ⟨kept2, cB2, cA2, hinv2, hperm2⟩ := ih _ _ _ _ hinv' htailsz htailpw
        htaildisr
        (by
          intro p hp q hq
          rcases List.mem_append.1 hp with hp | hp
          · exact hcross p hp q (by simp [hq])
          · simp at hp
            rw [hp]
            exact hheadtail q hq)
        (fun b hb q hq => hconsB b hb q (by simp [hq]))
        (fun d hd q hq => hconsA d hd q (by simp [hq]))
      refine ⟨kept2, cB2, cA2, hinv2, hperm2.trans ?_⟩
      have h1 : ((kept ++ [head]) ++ (cB.toList ++ cA.toList)) ++ tail =
          kept ++ (head :: ((cB.toList ++ cA.toList) ++ tail)) := by simp
      have h2 : (kept ++ (cB.toList ++ cA.toList)) ++ (head :: tail) =
          kept ++ ((cB.toList ++ cA.toList) ++ (head :: tail)) := by simp
      rw [h1, h2]
      exact perm_head_shift kept (cB.toList ++ cA.toList) tail head
    · -- head merges into the hull
      have hadj : bothAdjacent head (hullOf a sz u cB cA) := by
        by_contra hn
        exact hC ((assign_test_iff a sz u hsz acc cB cA hinv.hB hinv.hA
          hinv.hstart hinv.huaddr hinv.hsize head hhd).2 hn)
      obtain ⟨hj1, hj2, hj3, hj4⟩ := hull_proj a sz u cB cA hinv.hB hinv.hA
      rcases hadj with ⟨ha1, ha2⟩ | ⟨ha1, ha2⟩
      · -- head is adjacent below the hull
        rw [hj1] at ha1
        rw [hj2] at ha2
        have hcBnone : cB = none := by
          rcases hcb : cB with _ | b
          · rfl
          · exfalso
            refine (hconsB b hcb head (by simp)).2 (Or.inl ⟨?_, ?_⟩)
            · rw [hcb] at ha1
              simpa [hullLo] using ha1
            · rw [hcb] at ha2
              simpa [hullLoU] using ha2
        subst hcBnone
        simp only [hullLo] at ha1
        simp only [hullLoU] at ha2
        have hB2 : classBelow a u (some head) := by
          intro b hb
          injection hb with hb
          rw [← hb]
          exact ⟨ha1, ha2, hhd⟩
        have hm : (⟨min acc.start_addr head.guest_phys_addr,
            max (range_get_last acc.start_addr acc.size)
              (range_get_last head.guest_phys_addr head.memory_size) -
              min acc.start_addr head.guest_phys_addr + 1,
            min acc.uaddr head.userspace_addr⟩ : VhostMemoryRegion) =
            hullOf a sz u (some head) cA := by
          have h1 := hinv.hstart
          have h2 := hinv.huaddr
          have h3 := hinv.hsize
          obtain ⟨hb1, hb2, hb3, hb4, hb5⟩ :=
            hull_bounds a sz u none cA hinv.hB hinv.hA
          simp only [hullLo] at h1 hb1
          simp only [hullLoU] at h2 hb3 hb4 hb5
          unfold hullOf range_get_last
          simp only [hullLo, hullLoU, VhostMemoryRegion.mk.injEq]
          refine ⟨by omega, by omega, by omega⟩
        have hgrow : ∀ p ∈ kept, goodPair p (hullOf a sz u (some head) cA) := by
          intro p hp
          exact goodPair_grow_below a sz u hsz cA hinv.hA head ha1 ha2 hhd p
            (hinv.hkeptSize p hp) (hinv.hkeptHull p hp)
            (hcross p hp head (by simp))
        have hstartlem : min acc.start_addr head.guest_phys_addr =
            hullLo a (some head) := by
          have h1 := hinv.hstart
          simp only [hullLo] at h1 ⊢
          omega
        have huaddrlem : min acc.uaddr head.userspace_addr =
            hullLoU u (some head) := by
          have h2 := hinv.huaddr
          simp only [hullLoU] at h2 ⊢
          omega
        have hsizelem : min acc.start_addr head.guest_phys_addr +
            (max (range_get_last acc.start_addr acc.size)
              (range_get_last head.guest_phys_addr head.memory_size) -
              min acc.start_addr head.guest_phys_addr + 1) = hullHi a sz cA := by
          have h1 := hinv.hstart
          have h3 := hinv.hsize
          obtain ⟨hb1, hb2, hb3, hb4, hb5⟩ :=
            hull_bounds a sz u none cA hinv.hB hinv.hA
          simp only [hullLo] at h1 hb1
          unfold range_get_last
          omega
        have hinv' : AssignInv a sz u (assignStep acc head) kept (some head) cA := by
          unfold assignStep
          dsimp only
          rw [if_neg hC]
          have hout := hinv.hout
          rcases hmi : acc.mergedIdx with _ | i <;> rw [hmi] at hout <;> dsimp only
          · obtain ⟨hB0, hA0, houteq⟩ := hout
            refine ⟨hB2, hinv.hA, hinv.hkeptSize, hgrow, hinv.hkeptPw,
              hstartlem, huaddrlem, hsizelem, ?_⟩
            dsimp only
            refine ⟨by simp, kept, [], by simp, ?_, ?_⟩
            · rw [houteq]
            · rw [hm, houteq]
          · obtain ⟨hne, pre, post, hkeq, hieq, houteq⟩ := hout
            refine ⟨hB2, hinv.hA, hinv.hkeptSize, hgrow, hinv.hkeptPw,
              hstartlem, huaddrlem, hsizelem, ?_⟩
            dsimp only
            refine ⟨by simp, pre, post, hkeq, hieq, ?_⟩
            rw [houteq, hieq, set_at_length, hm]
        obtain ⟨kept2, cB2, cA2, hinv2, hperm2⟩ := ih _ _ _ _ hinv' htailsz htailpw
          htaildisr
          (fun p hp q hq => hcross p hp q (by simp [hq]))
          (by
            intro b hb q hq
            injection hb with hb
            rw [← hb]
            exact goodPair_symm (hheadtail q hq))
          (fun d hd q hq => hconsA d hd q (by simp [hq]))
        refine ⟨kept2, cB2, cA2, hinv2, hperm2.trans ?_⟩
        have h1 : (kept ++ ((some head : Option VhostMemoryRegion).toList ++
            cA.toList)) ++ tail =
            kept ++ (head :: (cA.toList ++ tail)) := by simp
        have h2 : (kept ++ ((none : Option VhostMemoryRegion).toList ++
            cA.toList)) ++ (head :: tail) =
            kept ++ (cA.toList ++ (head :: tail)) := by simp
        rw [h1, h2]
        exact perm_head_shift kept cA.toList tail head
      · -- head is adjacent above the hull
        rw [hj3] at ha1
        rw [hj4] at ha2
        have hcAnone : cA = none := by
          rcases hca : cA with _ | d
          · rfl
          · exfalso
            obtain ⟨hdd1, hdd2, hdd3⟩ := hinv.hA d hca
            refine (hconsA d hca head (by simp)).2 (Or.inr ⟨?_, ?_⟩)
            · rw [hca] at ha1
              simpa [hullHi] using ha1
            · rw [hca] at ha2
              simp only [hullHi] at ha2
              omega
        subst hcAnone
        simp only [hullHi] at ha1
        have ha2' : head.userspace_addr = u + sz := by
          simp only [hullHi] at ha2
          omega
        have hA2 : classAbove a sz u (some head) := by
          intro d hd
          injection hd with hd
          rw [← hd]
          exact ⟨ha1.symm, ha2', hhd⟩
        have hm : (⟨min acc.start_addr head.guest_phys_addr,
            max (range_get_last acc.start_addr acc.size)
              (range_get_last head.guest_phys_addr head.memory_size) -
              min acc.start_addr head.guest_phys_addr + 1,
            min acc.uaddr head.userspace_addr⟩ : VhostMemoryRegion) =
            hullOf a sz u cB (some head) := by
          have h1 := hinv.hstart
          have h2 := hinv.huaddr
          have h3 := hinv.hsize
          obtain ⟨hb1, hb2, hb3, hb4, hb5⟩ :=
            hull_bounds a sz u cB none hinv.hB hinv.hA
          simp only [hullHi] at h3 hb2 hb5
          unfold hullOf range_get_last
          simp only [hullHi, VhostMemoryRegion.mk.injEq]
          refine ⟨by omega, by omega, by omega⟩
        have hgrow : ∀ p ∈ kept, goodPair p (hullOf a sz u cB (some head)) := by
          intro p hp
          exact goodPair_grow_above a sz u hsz cB hinv.hB head ha1.symm ha2' hhd p
            (hinv.hkeptSize p hp) (hinv.hkeptHull p hp)
            (hcross p hp head (by simp))
        have hstartlem : min acc.start_addr head.guest_phys_addr =
            hullLo a cB := by
          have h1 := hinv.hstart
          have h3 := hinv.hsize
          obtain ⟨hb1, hb2, hb3, hb4, hb5⟩ :=
            hull_bounds a sz u cB none hinv.hB hinv.hA
          simp only [hullHi] at h3 hb2
          omega
        have huaddrlem : min acc.uaddr head.userspace_addr =
            hullLoU u cB := by
          have h2 := hinv.huaddr
          have h3 := hinv.hsize
          obtain ⟨hb1, hb2, hb3, hb4, hb5⟩ :=
            hull_bounds a sz u cB none hinv.hB hinv.hA
          simp only [hullHi] at h3 hb2 hb5
          omega
        have hsizelem : min acc.start_addr head.guest_phys_addr +
            (max (range_get_last acc.start_addr acc.size)
              (range_get_last head.guest_phys_addr head.memory_size) -
              min acc.start_addr head.guest_phys_addr + 1) =
            hullHi a sz (some head) := by
          have h1 := hinv.hstart
          have h3 := hinv.hsize
          obtain ⟨hb1, hb2, hb3, hb4, hb5⟩ :=
            hull_bounds a sz u cB none hinv.hB hinv.hA
          simp only [hullHi] at h3 hb2
          unfold range_get_last
          simp only [hullHi]
          omega
        have hinv' : AssignInv a sz u (assignStep acc head) kept cB (some head) := by
          unfold assignStep
          dsimp only
          rw [if_neg hC]
          have hout := hinv.hout
          rcases hmi : acc.mergedIdx with _ | i <;> rw [hmi] at hout <;> dsimp only
          · obtain ⟨hB0, hA0, houteq⟩ := hout
            refine ⟨hinv.hB, hA2, hinv.hkeptSize, hgrow, hinv.hkeptPw,
              hstartlem, huaddrlem, hsizelem, ?_⟩
            dsimp only
            refine ⟨by simp, kept, [], by simp, ?_, ?_⟩
            · rw [houteq]
            · rw [hm, houteq]
          · obtain ⟨hne, pre, post, hkeq, hieq, houteq⟩ := hout
            refine ⟨hinv.hB, hA2, hinv.hkeptSize, hgrow, hinv.hkeptPw,
              hstartlem, huaddrlem, hsizelem, ?_⟩
            dsimp only
            refine ⟨by simp, pre, post, hkeq, hieq, ?_⟩
            rw [houteq, hieq, set_at_length, hm]
        obtain ⟨kept2, cB2, cA2, hinv2, hperm2⟩ := ih _ _ _ _ hinv' htailsz htailpw
          htaildisr
          (fun p hp q hq => hcross p hp q (by simp [hq]))
          (fun b hb q hq => hconsB b hb q (by simp [hq]))
          (by
            intro d hd q hq
            injection hd with hd
            rw [← hd]
            exact goodPair_symm (hheadtail q hq))
        refine ⟨kept2, cB2, cA2, hinv2, hperm2.trans ?_⟩
        have h1 : (kept ++ (cB.toList ++
            ((some head : Option VhostMemoryRegion).toList))) ++ tail =
            (kept ++ (cB.toList ++
              ((none : Option VhostMemoryRegion).toList))) ++ (head :: tail) := by
          simp
        rw [h1]

/-- Structure of `vhost_dev_assign_memory` on a well-formed table disjoint
from the new range: the result is the kept regions with the hull of the new
range and its (at most one per side) consumed neighbours in the merged slot,
and kept plus consumed is a permutation of the input table. -/
theorem assign_spec (a sz u : Nat) (hsz : 0 < sz) (t : List VhostMemoryRegion)
    (hts : ∀ r ∈ t, 0 < r.memory_size) (htp : t.Pairwise goodPair)
    (hdisj : ∀ q ∈ t, regsDisjoint q ⟨a, sz, u⟩) :
    ∃ kept cB cA,
      classBelow a u cB ∧ classAbove a sz u cA ∧
      (∀ p ∈ kept, 0 < p.memory_size) ∧
      (∀ p ∈ kept, goodPair p (hullOf a sz u cB cA)) ∧
      kept.Pairwise goodPair ∧
      (kept ++ (cB.toList ++ cA.toList)).Perm t ∧
      ∃ pre post, kept = pre ++ post ∧
        vhost_dev_assign_memory a sz u t = pre ++ hullOf a sz u cB cA :: post := by
  have hinit : AssignInv a sz u ⟨[], none, a, sz, u⟩ [] none none := by
    refine ⟨fun b hb => (by cases hb), fun d hd => (by cases hd), (by simp),
      (by simp), (by simp), rfl, rfl, rfl, ?_⟩
    exact ⟨rfl, rfl, rfl⟩
  obtain ⟨kept2, cB2, cA2, hinv2, hperm2⟩ := assignGo_inv a sz u hsz t
    ⟨[], none, a, sz, u⟩ [] none none hinit hts htp hdisj
    (by simp) (fun b hb => (by cases hb)) (fun d hd => (by cases hd))
  have hperm : (kept2 ++ (cB2.toList ++ cA2.toList)).Perm t := by
    refine hperm2.trans ?_
    simp
  refine ⟨kept2, cB2, cA2, hinv2.hB, hinv2.hA, hinv2.hkeptSize,
    hinv2.hkeptHull, hinv2.hkeptPw, hperm, ?_⟩
  have hout := hinv2.hout
  unfold vhost_dev_assign_memory
  rcases hmi : (t.foldl assignStep ⟨[], none, a, sz, u⟩).mergedIdx with _ | i <;>
    rw [hmi] at hout <;> dsimp only
  · obtain ⟨hB0, hA0, houteq⟩ := hout
    subst hB0
    subst hA0
    refine ⟨kept2, [], by simp, ?_⟩
    rw [houteq]
    have hlit : (⟨(t.foldl assignStep ⟨[], none, a, sz, u⟩).start_addr,
        (t.foldl assignStep ⟨[], none, a, sz, u⟩).size,
        (t.foldl assignStep ⟨[], none, a, sz, u⟩).uaddr⟩ : VhostMemoryRegion) =
        hullOf a sz u none none := by
      have h1 := hinv2.hstart
      have h2 := hinv2.huaddr
      have h3 := hinv2.hsize
      unfold hullOf
      simp only [hullLo, hullLoU, hullHi] at h1 h2 h3 ⊢
      simp only [VhostMemoryRegion.mk.injEq]
      refine ⟨by omega, by omega, by omega⟩
    rw [hlit, hmi]
  · obtain ⟨hne, pre, post, hkeq, hieq, houteq⟩ := hout
    refine ⟨pre, post, hkeq, ?_⟩
    rw [hmi]
    exact houteq

/-- The hull has nonzero size. -/
theorem hull_size_pos (a sz u : Nat) (hsz : 0 < sz)
    (cB cA : Option VhostMemoryRegion)
    (hB : classBelow a u cB) (hA : classAbove a sz u cA) :
    0 < (hullOf a sz u cB cA).memory_size := by
  obtain ⟨hb1, hb2, hb3, hb4, hb5⟩ := hull_bounds a sz u cB cA hB hA
  unfold hullOf
  dsimp only
  omega

/-- `vhost_dev_assign_memory` preserves the table invariants when the new
range overlaps nothing. -/
theorem assign_good (a sz u : Nat) (hsz : 0 < sz) (t : List VhostMemoryRegion)
    (hts : ∀ r ∈ t, 0 < r.memory_size) (htp : t.Pairwise goodPair)
    (hdisj : ∀ q ∈ t, regsDisjoint q ⟨a, sz, u⟩) :
    (∀ p ∈ vhost_dev_assign_memory a sz u t, 0 < p.memory_size) ∧
    (vhost_dev_assign_memory a sz u t).Pairwise goodPair := by
  obtain ⟨kept, cB, cA, hB, hA, hksz, hkh, hkpw, hperm, pre, post, hkeq, hres⟩ :=
    assign_spec a sz u hsz t hts htp hdisj
  rw [hres]
  constructor
  · intro p hp
    rcases List.mem_append.1 hp with hp | hp
    · exact hksz p (hkeq ▸ List.mem_append_left post hp)
    · rcases List.mem_cons.1 hp with hp | hp
      · rw [hp]
        exact hull_size_pos a sz u hsz cB cA hB hA
      · exact hksz p (hkeq ▸ List.mem_append_right pre hp)
  · rw [List.pairwise_middle (fun {x y} h => goodPair_symm h)]
    rw [List.pairwise_cons]
    constructor
    · intro p hp
      exact goodPair_symm (hkh p (hkeq ▸ hp))
    · rw [← hkeq]
      exact hkpw

/-- One region-table operation preserves the invariants. -/
theorem RTOp_preserves (t : List VhostMemoryRegion) (op : RTOp)
    (hts : ∀ r ∈ t, 0 < r.memory_size) (htp : t.Pairwise goodPair)
    (hop : op.sizePos) :
    (∀ r ∈ RTOp.apply t op, 0 < r.memory_size) ∧
    (RTOp.apply t op).Pairwise goodPair := by
  rcases op with ⟨a, sz⟩ | ⟨a, sz, u⟩
  · exact unassign_good a sz hop t hts htp
  · unfold RTOp.apply
    obtain ⟨h1, h2⟩ := unassign_good a sz hop t hts htp
    refine assign_good a sz u hop _ h1 h2 ?_
    intro q hq
    exact unassign_avoid a sz hop t hts q hq

/-- A whole operation sequence preserves the invariants. -/
theorem applyRTOps_good (ops : List RTOp) :
    ∀ (t : List VhostMemoryRegion), (∀ r ∈ t, 0 < r.memory_size) →
      t.Pairwise goodPair → (∀ op ∈ ops, op.sizePos) →
      (∀ r ∈ applyRTOps t ops, 0 < r.memory_size) ∧
      (applyRTOps t ops).Pairwise goodPair := by
  induction ops with
  | nil =>
    intro t h1 h2 _
    exact ⟨h1, h2⟩
  | cons op rest ih =>
    intro t h1 h2 hop
    obtain ⟨h1', h2'⟩ := RTOp_preserves t op h1 h2 (hop op (by simp))
    exact ih _ h1' h2' (fun o ho => hop o (by simp [ho]))

/-- C2: after any sequence of `unassign(gpa, size)` and
`assign(gpa, size, hva)` operations on the region table (each `assign`
preceded by the `unassign` of the same range, as `vhost_set_memory` always
does, and every operation with the nonzero size `vhost_set_memory` asserts),
starting from the empty table a device begins with, no two regions overlap in
guest-physical space and every region has nonzero size. -/
theorem rt_ops_nonoverlap (ops : List RTOp) (hops : ∀ op ∈ ops, op.sizePos) :
    (∀ r ∈ applyRTOps [] ops, 0 < r.memory_size) ∧
    (applyRTOps [] ops).Pairwise regsDisjoint := by
  obtain ⟨h1, h2⟩ := applyRTOps_good ops [] (by simp) (by simp) hops
  exact ⟨h1, h2.imp (fun h => h.1)⟩

theorem rt_ops_nonoverlap_witness :
    (∀ op ∈ [RTOp.assignOp 0x0 0x1000 0x70000000,
             RTOp.assignOp 0x2000 0x1000 0x70002000,
             RTOp.unassignOp 0x0 0x500], op.sizePos) ∧
    ((∀ r ∈ applyRTOps [] [RTOp.assignOp 0x0 0x1000 0x70000000,
             RTOp.assignOp 0x2000 0x1000 0x70002000,
             RTOp.unassignOp 0x0 0x500], 0 < r.memory_size) ∧
     (applyRTOps [] [RTOp.assignOp 0x0 0x1000 0x70000000,
             RTOp.assignOp 0x2000 0x1000 0x70002000,
             RTOp.unassignOp 0x0 0x500]).Pairwise regsDisjoint) :=
  ⟨by decide,
   rt_ops_nonoverlap [RTOp.assignOp 0x0 0x1000 0x70000000,
     RTOp.assignOp 0x2000 0x1000 0x70002000,
     RTOp.unassignOp 0x0 0x500] (by decide)⟩

/-- C6: after any sequence of `assign`/`unassign` operations (each `assign`
preceded by the `unassign` of its range, all sizes nonzero), starting from
the empty table, the table is merge-maximal: no two regions are adjacent in
both gpa and hva. -/
theorem rt_ops_merge_maximal (ops : List RTOp) (hops : ∀ op ∈ ops, op.sizePos) :
    (applyRTOps [] ops).Pairwise fun x y => ¬ bothAdjacent x y := by
  obtain ⟨-, h2⟩ := applyRTOps_good ops [] (by simp) (by simp) hops
  exact h2.imp (fun h => h.2)

theorem rt_ops_merge_maximal_witness :
    (∀ op ∈ [RTOp.assignOp 0x0 0x1000 0x70000000,
             RTOp.assignOp 0x1000 0x1000 0x70001000,
             RTOp.unassignOp 0x400 0x200], op.sizePos) ∧
    (applyRTOps [] [RTOp.assignOp 0x0 0x1000 0x70000000,
             RTOp.assignOp 0x1000 0x1000 0x70001000,
             RTOp.unassignOp 0x400 0x200]).Pairwise
      (fun x y => ¬ bothAdjacent x y) :=
  ⟨by decide,
   rt_ops_merge_maximal [RTOp.assignOp 0x0 0x1000 0x70000000,
     RTOp.assignOp 0x1000 0x1000 0x70001000,
     RTOp.unassignOp 0x400 0x200] (by decide)⟩

/-- A region disjoint from the removal range survives `unassignPieces`
unchanged. -/
theorem unassignPieces_of_disjoint (a sz : Nat) (hsz : 0 < sz)
    (reg : VhostMemoryRegion) (hreg : 0 < reg.memory_size)
    (hd : reg.guest_phys_addr + reg.memory_size ≤ a ∨
          a + sz ≤ reg.guest_phys_addr) :
    unassignPieces a sz reg = ([reg], []) := by
  unfold unassignPieces
  rw [if_pos ((ranges_overlap_eq_false_iff _ _ _ _).2 (by omega))]

/-- Interleaving the two piece streams of the unassign compaction: the
low-parts block followed by the split-high-parts block is a permutation of
the per-region concatenation. -/
theorem flatten_map_append_perm {α β : Type} (f g : α → List β)
    (l : List α) :
    ((l.map f).flatten ++ (l.map g).flatten).Perm
      (l.map fun r => f r ++ g r).flatten := by
  induction l with
  | nil => simp
  | cons x xs ih =>
    simp only [List.map_cons, List.flatten_cons, List.append_assoc]
    refine List.Perm.append_left (f x) ?_
    rw [← List.append_assoc]
    refine List.Perm.trans (List.Perm.append_right _ List.perm_append_comm) ?_
    rw [List.append_assoc]
    exact List.Perm.append_left (g x) ih

/-- `vhost_dev_unassign_memory` is, up to order, the per-region pieces
concatenated in table order. -/
theorem unassign_perm_flatten (a sz : Nat) (l : List VhostMemoryRegion) :
    (vhost_dev_unassign_memory a sz l).Perm
      (l.map fun r =>
        (unassignPieces a sz r).1 ++ (unassignPieces a sz r).2).flatten := by
  unfold vhost_dev_unassign_memory
  exact flatten_map_append_perm _ _ l

/-- Removing the just-assigned range from the hull returns exactly the
consumed neighbours. -/
theorem hull_pieces (a sz u : Nat) (hsz : 0 < sz)
    (cB cA : Option VhostMemoryRegion)
    (hB : classBelow a u cB) (hA : classAbove a sz u cA) :
    (unassignPieces a sz (hullOf a sz u cB cA)).1 ++
      (unassignPieces a sz (hullOf a sz u cB cA)).2 =
    cB.toList ++ cA.toList := by
  rcases cB with _ | ⟨bg, bs, bu⟩ <;> rcases cA with _ | ⟨dg, ds, du⟩
  · simp only [hullOf, hullLo, hullLoU, hullHi, unassignPieces]
    split
    · rename_i hov
      rw [ranges_overlap_eq_false_iff] at hov
      omega
    · rw [if_pos (by simp only [range_get_last]; omega)]
      rfl
  · obtain ⟨hd1, hd2, hd3⟩ := hA ⟨dg, ds, du⟩ rfl
    dsimp only at hd1 hd2 hd3
    simp only [hullOf, hullLo, hullLoU, hullHi, unassignPieces]
    split
    · rename_i hov
      rw [ranges_overlap_eq_false_iff] at hov
      omega
    · rw [if_neg (by simp only [range_get_last]; omega),
        if_neg (by simp only [range_get_last]; omega),
        if_pos (by omega)]
      simp only [range_get_last, Option.toList, List.nil_append,
        List.cons_append, List.cons.injEq, VhostMemoryRegion.mk.injEq,
        List.append_nil, and_true, true_and] <;> omega
  · obtain ⟨hb1, hb2, hb3⟩ := hB ⟨bg, bs, bu⟩ rfl
    dsimp only at hb1 hb2 hb3
    simp only [hullOf, hullLo, hullLoU, hullHi, unassignPieces]
    split
    · rename_i hov
      rw [ranges_overlap_eq_false_iff] at hov
      omega
    · rw [if_neg (by simp only [range_get_last]; omega),
        if_pos (by simp only [range_get_last]; omega)]
      simp only [range_get_last, Option.toList, List.append_nil,
        List.nil_append, List.cons_append, List.cons.injEq,
        VhostMemoryRegion.mk.injEq, and_true, true_and] <;> omega
  · obtain ⟨hb1, hb2, hb3⟩ := hB ⟨bg, bs, bu⟩ rfl
    obtain ⟨hd1, hd2, hd3⟩ := hA ⟨dg, ds, du⟩ rfl
    dsimp only at hb1 hb2 hb3 hd1 hd2 hd3
    simp only [hullOf, hullLo, hullLoU, hullHi, unassignPieces]
    split
    · rename_i hov
      rw [ranges_overlap_eq_false_iff] at hov
      omega
    · rw [if_neg (by simp only [range_get_last]; omega),
        if_neg (by simp only [range_get_last]; omega),
        if_neg (by omega)]
      simp only [range_get_last, Option.toList, List.cons_append,
        List.nil_append, List.append_nil, List.cons.injEq,
        VhostMemoryRegion.mk.injEq, and_true, true_and] <;> omega

/-- Mapping a pointwise-singleton function and flattening is the identity. -/
theorem flatten_map_id {α : Type} (l : List α) (f : α → List α)
    (h : ∀ r ∈ l, f r = [r]) : (l.map f).flatten = l := by
  induction l with
  | nil => rfl
  | cons x xs ih =>
    simp only [List.map_cons, List.flatten_cons, h x (by simp)]
    rw [ih (fun r hr => h r (by simp [hr]))]
    rfl

/-- C7: on a table satisfying the maintained invariants (nonzero sizes,
non-overlap, merge-maximality), for any range `r = (gpa, size, hva)` of
nonzero size that overlaps no existing region, `assign(r)` followed by
`unassign(r)` returns the region table to its pre-assign state viewed as a
set of regions (the table order is not observable). -/
theorem assign_then_unassign_roundtrip (a sz u : Nat) (hsz : 0 < sz)
    (t : List VhostMemoryRegion)
    (hts : ∀ r ∈ t, 0 < r.memory_size) (htp : t.Pairwise goodPair)
    (hdisj : ∀ q ∈ t, regsDisjoint q ⟨a, sz, u⟩) :
    (vhost_dev_unassign_memory a sz
      (vhost_dev_assign_memory a sz u t)).Perm t := by
  obtain ⟨kept, cB, cA, hB, hA, hksz, hkh, hkpw, hperm, pre, post, hkeq, hres⟩ :=
    assign_spec a sz u hsz t hts htp hdisj
  rw [hres]
  refine (unassign_perm_flatten a sz _).trans ?_
  obtain ⟨hu1, hu2, hu3, hu4, hu5⟩ := hull_bounds a sz u cB cA hB hA
  have hkf : ∀ r ∈ kept,
      (unassignPieces a sz r).1 ++ (unassignPieces a sz r).2 = [r] := by
    intro r hr
    obtain ⟨hdis, -⟩ := hkh r hr
    unfold regsDisjoint hullOf at hdis
    dsimp only at hdis
    rw [unassignPieces_of_disjoint a sz hsz r (hksz r hr) (by omega)]
    rfl
  rw [List.map_append, List.map_cons, List.flatten_append, List.flatten_cons]
  rw [flatten_map_id pre _ (fun r hr => hkf r (hkeq ▸ List.mem_append_left post hr)),
    flatten_map_id post _ (fun r hr => hkf r (hkeq ▸ List.mem_append_right pre hr)),
    hull_pieces a sz u hsz cB cA hB hA]
  refine List.Perm.trans (List.Perm.append_left pre List.perm_append_comm) ?_
  rw [← List.append_assoc, ← hkeq]
  exact hperm

theorem assign_then_unassign_roundtrip_witness :
    (0 < 0x1000 ∧
     (∀ r ∈ [(⟨0x0, 0x1000, 0x70000000⟩ : VhostMemoryRegion),
             ⟨0x3000, 0x1000, 0x70003000⟩], 0 < r.memory_size) ∧
     ([(⟨0x0, 0x1000, 0x70000000⟩ : VhostMemoryRegion),
       ⟨0x3000, 0x1000, 0x70003000⟩].Pairwise goodPair) ∧
     (∀ q ∈ [(⟨0x0, 0x1000, 0x70000000⟩ : VhostMemoryRegion),
             ⟨0x3000, 0x1000, 0x70003000⟩],
        regsDisjoint q ⟨0x1000, 0x1000, 0x70001000⟩)) ∧
    (vhost_dev_unassign_memory 0x1000 0x1000
      (vhost_dev_assign_memory 0x1000 0x1000 0x70001000
        [⟨0x0, 0x1000, 0x70000000⟩, ⟨0x3000, 0x1000, 0x70003000⟩])).Perm
      [⟨0x0, 0x1000, 0x70000000⟩, ⟨0x3000, 0x1000, 0x70003000⟩] :=
  ⟨⟨by decide, by decide, by decide, by decide⟩,
   assign_then_unassign_roundtrip 0x1000 0x1000 0x70001000 (by decide)
     [⟨0x0, 0x1000, 0x70000000⟩, ⟨0x3000, 0x1000, 0x70003000⟩]
     (by decide) (by decide) (by decide)⟩
